import Mathlib

/-!
# Level-aware CKKS evaluation helper: model and verification

The development embeds `CKKSHelper` (ckks_helper.cpp) and the inference
driver `checkStatus` (main.cpp) over an exact, noise-free model of the
homomorphic backend.

A ciphertext is the triple the backend exposes: the vector of encoded slot
contents, its level (chain index, the number of rescalings still possible) and
its scale.  The encoded content of a slot is the represented value multiplied
by the scale, as produced by the encoder; the value a ciphertext represents is
therefore `raw / scale`, which is what decryption followed by decoding returns.
A multiplication multiplies contents and scales, a rescaling divides both by
the modulus of the current level, a modulus switch changes the level only, and
an assignment to the scale changes the scale only, hence the represented value.
Real numbers are modelled by rationals.

A helper call that mutates a ciphertext passed by reference returns an
`Outcome`: the state the ciphertext is left in and the exception thrown, if
any.  Not modelled: noise, the bounds the backend puts on the size of scales
and encoded coefficients, the size of a ciphertext (relinearisation is the
identity on the tracked state), and the range of machine integers, which no
index or stride of the modelled code leaves.
-/

namespace CKKS

/-! ## Errors -/

/-- Exceptions that can end a call. -/
inductive Err where
  /-- Thrown by `mask_slot_inplace`: `std::out_of_range`. -/
  | invalidIndex
  /-- Encoder: more values than slots. -/
  | dimensionMismatch
  /-- Rescaling requested at the last level of the chain. -/
  | levelExhausted
  /-- Two operands at different levels. -/
  | levelMismatch
  /-- Addition of operands with different scales. -/
  | scaleMismatch
  /-- Modulus switching towards a higher level. -/
  | invalidLevel
  /-- Rotation by a step that is not below the slot count. -/
  | invalidStep
  /-- Thrown by `minmax_scale`: `std::invalid_argument`. -/
  | invalidArgument
  /-- The iteration bound of a modelled loop was reached. -/
  | outOfFuel
  deriving DecidableEq, Repr

/-! ## Backend -/

/-- Scheme parameters fixed at start-up: the slot count (half the polynomial
modulus degree), the coefficient modulus chain as listed by the driver (its
last entry is the special modulus, used by key switching only) and the global
base scale. -/
structure Params where
  slot_count : Nat
  coeff_modulus : List Nat
  scale : ℚ

/-- Modelled from the spec: the level of a freshly encrypted ciphertext, i.e.
the number of rescalings the chain allows (the backend keeps the last modulus
of the list for key switching). -/
def Params.top (P : Params) : Nat := P.coeff_modulus.length - 2

/-- Modelled from the spec: the modulus divided out by a rescaling performed at
level `k`. -/
def Params.modulus (P : Params) (k : Nat) : ℚ := ((P.coeff_modulus.getD k 1 : Nat) : ℚ)

/-- An encoded, unencrypted vector, tied to a level and a scale. -/
structure Plaintext where
  raw : List ℚ
  level : Nat
  scale : ℚ

/-- An encrypted vector with its read-only metadata. -/
structure Ciphertext where
  raw : List ℚ
  level : Nat
  scale : ℚ

/-- Value represented in slot `j`. -/
def Ciphertext.value (ct : Ciphertext) (j : Nat) : ℚ := ct.raw.getD j 0 / ct.scale

/-- Modelled from the spec: backend `encode(vector, level, scale)`. Slots beyond
the vector are zero; a vector longer than the slot capacity is rejected. -/
def Encoder.encode (P : Params) (vec : List ℚ) (level : Nat) (scale : ℚ) :
    Except Err Plaintext :=
  if P.slot_count < vec.length then .error .dimensionMismatch
  else .ok ⟨(List.range P.slot_count).map (fun j => vec.getD j 0 * scale), level, scale⟩

/-- Modelled from the spec: backend `decode`. -/
def Encoder.decode (pt : Plaintext) : List ℚ := pt.raw.map (fun m => m / pt.scale)

/-- Modelled from the spec: backend `encrypt` (noise-free). -/
def Encryptor.encrypt (pt : Plaintext) : Ciphertext := ⟨pt.raw, pt.level, pt.scale⟩

/-- Modelled from the spec: backend `decrypt` (noise-free). -/
def Decryptor.decrypt (ct : Ciphertext) : Plaintext := ⟨ct.raw, ct.level, ct.scale⟩

/-- Modelled from the spec: backend `addPlainInPlace`; operands must share level
and scale. -/
def Evaluator.add_plain (ct : Ciphertext) (pt : Plaintext) : Except Err Ciphertext :=
  if ct.level ≠ pt.level then .error .levelMismatch
  else if ct.scale ≠ pt.scale then .error .scaleMismatch
  else .ok { ct with raw := List.zipWith (· + ·) ct.raw pt.raw }

/-- Modelled from the spec: backend `multiplyPlainInPlace`; operands must share
the level, the scales multiply. No rescaling is done here. -/
def Evaluator.multiply_plain (ct : Ciphertext) (pt : Plaintext) : Except Err Ciphertext :=
  if ct.level ≠ pt.level then .error .levelMismatch
  else .ok { ct with raw := List.zipWith (· * ·) ct.raw pt.raw, scale := ct.scale * pt.scale }

/-- Modelled from the spec: backend `addInPlace(ct, ct)`; operands must share
level and scale. -/
def Evaluator.add (a b : Ciphertext) : Except Err Ciphertext :=
  if a.level ≠ b.level then .error .levelMismatch
  else if a.scale ≠ b.scale then .error .scaleMismatch
  else .ok { a with raw := List.zipWith (· + ·) a.raw b.raw }

/-- Modelled from the spec: backend `multiplyInPlace(ct, ct)`; operands must
share the level, the scales multiply. -/
def Evaluator.multiply (a b : Ciphertext) : Except Err Ciphertext :=
  if a.level ≠ b.level then .error .levelMismatch
  else .ok { a with raw := List.zipWith (· * ·) a.raw b.raw, scale := a.scale * b.scale }

/-- Modelled from the spec: backend `relinearizeInPlace`; it reduces the size of
the ciphertext only, which is not part of the tracked state. -/
def Evaluator.relinearize (ct : Ciphertext) : Ciphertext := ct

/-- Modelled from the spec: backend `rescaleToNextInPlace`; divides out the
modulus of the current level, moving one level down. -/
def Evaluator.rescale_to_next (P : Params) (ct : Ciphertext) : Except Err Ciphertext :=
  if ct.level = 0 then .error .levelExhausted
  else .ok ⟨ct.raw.map (fun m => m / P.modulus ct.level), ct.level - 1,
            ct.scale / P.modulus ct.level⟩

/-- Modelled from the spec: backend `rotateInPlace`; cyclic rotation of the slots
to the left. -/
def Evaluator.rotate_vector (P : Params) (ct : Ciphertext) (steps : Nat) :
    Except Err Ciphertext :=
  if P.slot_count ≤ steps then .error .invalidStep
  else .ok { ct with raw := ct.raw.rotate steps }

/-- Modelled from the spec: backend `modSwitchToInPlace`; moves down to the
target level, keeping content and scale. -/
def Evaluator.mod_switch_to (ct : Ciphertext) (target : Nat) : Except Err Ciphertext :=
  if ct.level < target then .error .invalidLevel
  else .ok { ct with level := target }

/-! ## CKKSHelper -/

/-- State in which a call leaves the ciphertext it received by reference,
together with the exception that ended the call, if any. -/
structure Outcome where
  ct : Ciphertext
  thrown : Option Err

/-- Model of `CKKSHelper::add_plain_inplace`. -/
def add_plain_inplace (P : Params) (ct : Ciphertext) (vec : List ℚ) : Outcome :=
  match Encoder.encode P vec ct.level ct.scale with
  | .error e => ⟨ct, some e⟩
  | .ok pt =>
    match Evaluator.add_plain ct pt with
    | .error e => ⟨ct, some e⟩
    | .ok ct1 => ⟨ct1, none⟩

/-- Model of `CKKSHelper::multiply_plain_inplace`. -/
def multiply_plain_inplace (P : Params) (ct : Ciphertext) (vec : List ℚ) : Outcome :=
  match Encoder.encode P vec ct.level ct.scale with
  | .error e => ⟨ct, some e⟩
  | .ok pt =>
    match Evaluator.multiply_plain ct pt with
    | .error e => ⟨ct, some e⟩
    | .ok ct1 =>
      match Evaluator.rescale_to_next P ct1 with
      | .error e => ⟨ct1, some e⟩
      | .ok ct2 => ⟨ct2, none⟩

/-- Loop of `CKKSHelper::sum_all_slots_inplace`, entered with stride `i`. -/
def sum_all_slots_loop (P : Params) : Nat → Nat → Ciphertext → Outcome
  | 0, _, ct => ⟨ct, some .outOfFuel⟩
  | fuel + 1, i, ct =>
    if i ≤ P.slot_count / 2 then
      match Evaluator.rotate_vector P ct i with
      | .error e => ⟨ct, some e⟩
      | .ok rotated_ct =>
        match Evaluator.add ct rotated_ct with
        | .error e => ⟨ct, some e⟩
        | .ok ct1 => sum_all_slots_loop P fuel (i * 2) ct1
    else ⟨ct, none⟩

/-- Model of `CKKSHelper::sum_all_slots_inplace`. -/
def sum_all_slots_inplace (P : Params) (ct : Ciphertext) : Outcome :=
  sum_all_slots_loop P (P.slot_count + 1) 1 ct

/-- Model of `CKKSHelper::mask_slot_inplace`. -/
def mask_slot_inplace (P : Params) (ct : Ciphertext) (index : Nat) : Outcome :=
  if P.slot_count ≤ index then ⟨ct, some .invalidIndex⟩
  else multiply_plain_inplace P ct ((List.replicate P.slot_count (0 : ℚ)).set index 1)

/-- Model of `CKKSHelper::apply_poly_relu_inplace`. -/
def apply_poly_relu_inplace (P : Params) (ct_in : Ciphertext) (size : Nat) : Outcome :=
  match multiply_plain_inplace P ct_in (List.replicate size 0.5) with
  | ⟨_, some e⟩ => ⟨ct_in, some e⟩
  | ⟨ct_lin, none⟩ =>
    match add_plain_inplace P ct_lin (List.replicate size 1.0) with
    | ⟨_, some e⟩ => ⟨ct_in, some e⟩
    | ⟨ct_lin_plus_1, none⟩ =>
      match Evaluator.multiply ct_lin ct_lin_plus_1 with
      | .error e => ⟨ct_in, some e⟩
      | .ok prod =>
        match Evaluator.rescale_to_next P (Evaluator.relinearize prod) with
        | .error e => ⟨ct_in, some e⟩
        | .ok res => ⟨res, none⟩

/-- Model of `CKKSHelper::apply_poly_sigmoid_inplace`. -/
def apply_poly_sigmoid_inplace (P : Params) (ct_in : Ciphertext) (size : Nat) : Outcome :=
  -- 1. x²
  match Evaluator.multiply ct_in ct_in with
  | .error e => ⟨ct_in, some e⟩
  | .ok sq =>
  match Evaluator.rescale_to_next P (Evaluator.relinearize sq) with
  | .error e => ⟨ct_in, some e⟩
  | .ok ct_x2 =>
  -- align ct_in with ct_x2
  match Evaluator.mod_switch_to ct_in ct_x2.level with
  | .error e => ⟨ct_in, some e⟩
  | .ok sw1 =>
  let ct_in1 : Ciphertext := { sw1 with scale := ct_x2.scale }
  -- 2. x³ = x² * x
  match Evaluator.multiply ct_x2 ct_in1 with
  | .error e => ⟨ct_in1, some e⟩
  | .ok cube =>
  match Evaluator.rescale_to_next P (Evaluator.relinearize cube) with
  | .error e => ⟨ct_in1, some e⟩
  | .ok ct_x3 =>
  -- align everything to the level of ct_x3
  match Evaluator.mod_switch_to ct_in1 ct_x3.level with
  | .error e => ⟨ct_in1, some e⟩
  | .ok sw2 =>
  match Evaluator.mod_switch_to ct_x2 ct_x3.level with
  | .error e => ⟨sw2, some e⟩
  | .ok _ =>
  let ct_in2 : Ciphertext := { sw2 with scale := ct_x3.scale }
  -- 3. combine
  match multiply_plain_inplace P ct_x3 (List.replicate size (-0.004)) with
  | ⟨_, some e⟩ => ⟨ct_in2, some e⟩
  | ⟨result, none⟩ =>
  match multiply_plain_inplace P ct_in2 (List.replicate size 0.197) with
  | ⟨_, some e⟩ => ⟨ct_in2, some e⟩
  | ⟨ct_lin, none⟩ =>
  match Evaluator.mod_switch_to result ct_lin.level with
  | .error e => ⟨ct_in2, some e⟩
  | .ok result1 =>
  match Evaluator.add result1 ct_lin with
  | .error e => ⟨ct_in2, some e⟩
  | .ok result2 =>
  match add_plain_inplace P result2 (List.replicate size 0.5) with
  | ⟨_, some e⟩ => ⟨ct_in2, some e⟩
  | ⟨result3, none⟩ => ⟨result3, none⟩

/-- Loop of `CKKSHelper::process_layer_linear` over the rows still to be
processed, `i` being the index of the first of them. -/
def process_layer_loop (P : Params) (ct_in : Ciphertext) :
    List (List ℚ) → Nat → Ciphertext → Except Err Ciphertext
  | [], _, ct_final => .ok ct_final
  | row :: rest, i, ct_final =>
    match multiply_plain_inplace P ct_in row with
    | ⟨_, some e⟩ => .error e
    | ⟨ct_curr1, none⟩ =>
    match sum_all_slots_inplace P ct_curr1 with
    | ⟨_, some e⟩ => .error e
    | ⟨ct_curr2, none⟩ =>
    match mask_slot_inplace P ct_curr2 i with
    | ⟨_, some e⟩ => .error e
    | ⟨ct_curr, none⟩ =>
    let aligned : Except Err Ciphertext :=
      if ct_final.level ≠ ct_curr.level then
        match Evaluator.mod_switch_to ct_final ct_curr.level with
        | .error e => .error e
        | .ok sw => .ok { sw with scale := ct_curr.scale }
      else .ok ct_final
    match aligned with
    | .error e => .error e
    | .ok ct_final1 =>
    match Evaluator.add ct_final1 ct_curr with
    | .error e => .error e
    | .ok ct_final2 => process_layer_loop P ct_in rest (i + 1) ct_final2

/-- Model of `CKKSHelper::process_layer_linear`. -/
def process_layer_linear (P : Params) (ct_in : Ciphertext) (weights : List (List ℚ))
    (biases : List ℚ) : Except Err Ciphertext :=
  match Encoder.encode P (List.replicate P.slot_count 0.0) P.top P.scale with
  | .error e => .error e
  | .ok pt_zero =>
  match process_layer_loop P ct_in weights 0 (Encryptor.encrypt pt_zero) with
  | .error e => .error e
  | .ok ct_final =>
  match add_plain_inplace P ct_final biases with
  | ⟨_, some e⟩ => .error e
  | ⟨res, none⟩ => .ok res

/-! ## Ciphertext-ciphertext combinations executed by the helper

The functions below follow the control flow of the helper functions above and
list, in execution order, the operands with which the backend is asked to add
or multiply two ciphertexts; a combination is listed when the call is made,
whether or not the backend then accepts it. -/

/-- A combination of two ciphertexts requested from the backend. -/
inductive Combo where
  /-- Operands of `evaluator.add_inplace(a, b)`. -/
  | add (a b : Ciphertext)
  /-- Operands of `evaluator.multiply(a, b, _)` or `evaluator.multiply_inplace(a, b)`. -/
  | multiply (a b : Ciphertext)

/-- The invariant of the data model: operands at the same level, and for an
addition also with the same scale. -/
def Combo.consistent : Combo → Prop
  | .add a b => a.level = b.level ∧ a.scale = b.scale
  | .multiply a b => a.level = b.level

/-- Combinations of the loop of `sum_all_slots_inplace`, entered with stride `i`. -/
def sum_all_slots_loop_combos (P : Params) : Nat → Nat → Ciphertext → List Combo
  | 0, _, _ => []
  | fuel + 1, i, ct =>
    if i ≤ P.slot_count / 2 then
      match Evaluator.rotate_vector P ct i with
      | .error _ => []
      | .ok rotated_ct =>
        .add ct rotated_ct ::
          match Evaluator.add ct rotated_ct with
          | .error _ => []
          | .ok ct1 => sum_all_slots_loop_combos P fuel (i * 2) ct1
    else []

/-- Combinations of `sum_all_slots_inplace`. -/
def sum_all_slots_inplace_combos (P : Params) (ct : Ciphertext) : List Combo :=
  sum_all_slots_loop_combos P (P.slot_count + 1) 1 ct

/-- Combinations of `apply_poly_relu_inplace`: the multiplication of `ct_lin` by
`ct_lin_plus_1`. -/
def apply_poly_relu_inplace_combos (P : Params) (ct_in : Ciphertext) (size : Nat) :
    List Combo :=
  match multiply_plain_inplace P ct_in (List.replicate size 0.5) with
  | ⟨_, some _⟩ => []
  | ⟨ct_lin, none⟩ =>
    match add_plain_inplace P ct_lin (List.replicate size 1.0) with
    | ⟨_, some _⟩ => []
    | ⟨ct_lin_plus_1, none⟩ => [.multiply ct_lin ct_lin_plus_1]

/-- Combinations of `apply_poly_sigmoid_inplace`: the two multiplications giving
`x²` and `x³` and the addition of the two weighted terms. -/
def apply_poly_sigmoid_inplace_combos (P : Params) (ct_in : Ciphertext) (size : Nat) :
    List Combo :=
  .multiply ct_in ct_in ::
  match Evaluator.multiply ct_in ct_in with
  | .error _ => []
  | .ok sq =>
  match Evaluator.rescale_to_next P (Evaluator.relinearize sq) with
  | .error _ => []
  | .ok ct_x2 =>
  match Evaluator.mod_switch_to ct_in ct_x2.level with
  | .error _ => []
  | .ok sw1 =>
  let ct_in1 : Ciphertext := { sw1 with scale := ct_x2.scale }
  .multiply ct_x2 ct_in1 ::
  match Evaluator.multiply ct_x2 ct_in1 with
  | .error _ => []
  | .ok cube =>
  match Evaluator.rescale_to_next P (Evaluator.relinearize cube) with
  | .error _ => []
  | .ok ct_x3 =>
  match Evaluator.mod_switch_to ct_in1 ct_x3.level with
  | .error _ => []
  | .ok sw2 =>
  match Evaluator.mod_switch_to ct_x2 ct_x3.level with
  | .error _ => []
  | .ok _ =>
  let ct_in2 : Ciphertext := { sw2 with scale := ct_x3.scale }
  match multiply_plain_inplace P ct_x3 (List.replicate size (-0.004)) with
  | ⟨_, some _⟩ => []
  | ⟨result, none⟩ =>
  match multiply_plain_inplace P ct_in2 (List.replicate size 0.197) with
  | ⟨_, some _⟩ => []
  | ⟨ct_lin, none⟩ =>
  match Evaluator.mod_switch_to result ct_lin.level with
  | .error _ => []
  | .ok result1 => [.add result1 ct_lin]

/-- Combinations of one iteration of the loop of `process_layer_linear`. -/
structure RowCombos where
  /-- The row index `i`. -/
  index : Nat
  /-- Additions executed by `sum_all_slots_inplace(ct_curr)`. -/
  reduction : List Combo
  /-- Operands of `evaluator.add_inplace(ct_final, ct_curr)`: the accumulator and
  the per-row ciphertext, when the iteration reaches that call. -/
  accumulation : Option (Ciphertext × Ciphertext)

/-- Combinations of the loop of `process_layer_linear` over the rows still to be
processed, `i` being the index of the first of them. -/
def process_layer_loop_combos (P : Params) (ct_in : Ciphertext) :
    List (List ℚ) → Nat → Ciphertext → List RowCombos
  | [], _, _ => []
  | row :: rest, i, ct_final =>
    match multiply_plain_inplace P ct_in row with
    | ⟨_, some _⟩ => [⟨i, [], none⟩]
    | ⟨ct_curr1, none⟩ =>
    match sum_all_slots_inplace P ct_curr1 with
    | ⟨_, some _⟩ => [⟨i, sum_all_slots_inplace_combos P ct_curr1, none⟩]
    | ⟨ct_curr2, none⟩ =>
    match mask_slot_inplace P ct_curr2 i with
    | ⟨_, some _⟩ => [⟨i, sum_all_slots_inplace_combos P ct_curr1, none⟩]
    | ⟨ct_curr, none⟩ =>
    let aligned : Except Err Ciphertext :=
      if ct_final.level ≠ ct_curr.level then
        match Evaluator.mod_switch_to ct_final ct_curr.level with
        | .error e => .error e
        | .ok sw => .ok { sw with scale := ct_curr.scale }
      else .ok ct_final
    match aligned with
    | .error _ => [⟨i, sum_all_slots_inplace_combos P ct_curr1, none⟩]
    | .ok ct_final1 =>
    ⟨i, sum_all_slots_inplace_combos P ct_curr1, some (ct_final1, ct_curr)⟩ ::
      match Evaluator.add ct_final1 ct_curr with
      | .error _ => []
      | .ok ct_final2 => process_layer_loop_combos P ct_in rest (i + 1) ct_final2

/-- Combinations of `process_layer_linear`; the bias is added as a plaintext and
takes no part in them. -/
def process_layer_linear_combos (P : Params) (ct_in : Ciphertext)
    (weights : List (List ℚ)) : List RowCombos :=
  match Encoder.encode P (List.replicate P.slot_count 0.0) P.top P.scale with
  | .error _ => []
  | .ok pt_zero => process_layer_loop_combos P ct_in weights 0 (Encryptor.encrypt pt_zero)

/-! ## Driver (main.cpp) -/

/-- Per-feature minima used by `minmax_scale`. -/
def min_vals : List ℚ := [
    60.0000000000, 0.0000000000, 15.0088511816, 0.0000000000, 0.0020030991, 0.0036160168,
    0.0093847201, 4.0026286598, 0.0000000000, 0.0000000000, 0.0000000000, 0.0000000000,
    0.0000000000, 0.0000000000, 90.0000000000, 60.0000000000, 150.0933155941, 50.2307065598,
    20.0034340150, 50.4071936198, 0.0053121464, 0.0004595936, 0.0000000000, 0.0000000000,
    0.0012879277, 0.0000000000, 0.0000000000, 0.0000000000, 0.0000000000, 0.0000000000]

/-- Per-feature maxima used by `minmax_scale`. -/
def max_vals : List ℚ := [
    90.0000000000, 3.0000000000, 39.9927674640, 1.0000000000, 19.9892933591, 9.9874294134,
    9.9983456788, 9.9998403167, 1.0000000000, 1.0000000000, 1.0000000000, 1.0000000000,
    1.0000000000, 1.0000000000, 179.0000000000, 119.0000000000, 299.9933524743,
    199.9656651014, 99.9803240780, 399.9418615941, 29.9913805605, 9.9964670726, 1.0000000000,
    1.0000000000, 9.9997471218, 1.0000000000, 1.0000000000, 1.0000000000, 1.0000000000,
    1.0000000000]

/-- Model of `minmax_scale`. -/
def minmax_scale (x : List ℚ) : Except Err (List ℚ) :=
  if x.length ≠ min_vals.length ∨ x.length ≠ max_vals.length then .error .invalidArgument
  else .ok ((List.range x.length).map (fun i =>
    let denom := max_vals.getD i 0 - min_vals.getD i 0
    if denom = 0 then -1.0
    else -1.0 + (x.getD i 0 - min_vals.getD i 0) * (1.0 - (-1.0)) / denom))

/-- Conversion of a real to `int`: truncation towards zero. -/
def truncToInt (q : ℚ) : Int := Int.tdiv q.num q.den

/-- Lines 87 to 102 of `checkStatus`: normalisation and encryption of the 30
features, the three linear layers and the two ReLU approximations; the result
is `ct_data3` before the sigmoid. -/
def checkStatus_layers (P : Params) (tempData : List ℚ)
    (l0_biases l1_biases l2_biases : List ℚ)
    (l0_weights l1_weights l2_weights : List (List ℚ)) : Except Err Ciphertext :=
  match minmax_scale (tempData.take 30) with
  | .error e => .error e
  | .ok data =>
  match Encoder.encode P data P.top P.scale with
  | .error e => .error e
  | .ok pt_data =>
  let ct_data := Encryptor.encrypt pt_data
  match process_layer_linear P ct_data l0_weights l0_biases with
  | .error e => .error e
  | .ok ct_data1 =>
  match apply_poly_relu_inplace P ct_data1 128 with
  | ⟨_, some e⟩ => .error e
  | ⟨ct_data1, none⟩ =>
  match process_layer_linear P ct_data1 l1_weights l1_biases with
  | .error e => .error e
  | .ok ct_data2 =>
  match apply_poly_relu_inplace P ct_data2 64 with
  | ⟨_, some e⟩ => .error e
  | ⟨ct_data2, none⟩ =>
  process_layer_linear P ct_data2 l2_weights l2_biases

/-- Lines 87 to 103 of `checkStatus`: `ct_data3` as it is decrypted. -/
def checkStatus_ciphertext (P : Params) (tempData : List ℚ)
    (l0_biases l1_biases l2_biases : List ℚ)
    (l0_weights l1_weights l2_weights : List (List ℚ)) : Except Err Ciphertext :=
  match checkStatus_layers P tempData l0_biases l1_biases l2_biases
      l0_weights l1_weights l2_weights with
  | .error e => .error e
  | .ok ct_data3 =>
  match apply_poly_sigmoid_inplace P ct_data3 1 with
  | ⟨_, some e⟩ => .error e
  | ⟨ct_data3, none⟩ => .ok ct_data3

/-- Model of `checkStatus`. -/
def checkStatus (P : Params) (tempData : List ℚ)
    (l0_biases l1_biases l2_biases : List ℚ)
    (l0_weights l1_weights l2_weights : List (List ℚ)) : Except Err Bool :=
  let diagnosis_dataset : Int := truncToInt (tempData.getD 30 0)
  match checkStatus_ciphertext P tempData l0_biases l1_biases l2_biases
      l0_weights l1_weights l2_weights with
  | .error e => .error e
  | .ok ct_data3 =>
  let pt := Decryptor.decrypt ct_data3
  let result := Encoder.decode pt
  let diagnosis_model : Int := if result.getD 0 0 > 0.5 then 1 else 0
  .ok (decide (diagnosis_dataset = diagnosis_model))

/-! ## Plaintext reference network, as the specification describes it -/

/-- The polynomial standing for ReLU. -/
def reluPoly (x : ℚ) : ℚ := 0.25 * x ^ 2 + 0.5 * x

/-- The polynomial standing for the sigmoid. -/
def sigmoidPoly (x : ℚ) : ℚ := 0.5 + 0.197 * x - 0.004 * x ^ 3

/-- Inner product of a weight row with an input vector. -/
def plain_dot (w x : List ℚ) : ℚ := (List.zipWith (· * ·) w x).sum

/-- Plaintext affine layer `W x + b`. -/
def plain_linear (W : List (List ℚ)) (b x : List ℚ) : List ℚ :=
  List.zipWith (fun row bi => plain_dot row x + bi) W b

/-- Input of the final activation of the plaintext network:
`W2 * reluPoly (W1 * reluPoly (W0 * x + b0) + b1) + b2`. -/
def plain_preactivation (W0 : List (List ℚ)) (b0 : List ℚ) (W1 : List (List ℚ))
    (b1 : List ℚ) (W2 : List (List ℚ)) (b2 : List ℚ) (x : List ℚ) : List ℚ :=
  plain_linear W2 b2
    ((plain_linear W1 b1 ((plain_linear W0 b0 x).map reluPoly)).map reluPoly)

/-- Output of the plaintext network. -/
def plain_network (W0 : List (List ℚ)) (b0 : List ℚ) (W1 : List (List ℚ))
    (b1 : List ℚ) (W2 : List (List ℚ)) (b2 : List ℚ) (x : List ℚ) : List ℚ :=
  (plain_preactivation W0 b0 W1 b1 W2 b2 x).map sigmoidPoly

/-- Diagnosis of the plaintext network: output 0 thresholded at 0.5. -/
def plain_diagnosis (W0 : List (List ℚ)) (b0 : List ℚ) (W1 : List (List ℚ))
    (b1 : List ℚ) (W2 : List (List ℚ)) (b2 : List ℚ) (x : List ℚ) : Int :=
  if (plain_network W0 b0 W1 b1 W2 b2 x).getD 0 0 > 0.5 then 1 else 0

/-! ## Abstract reading of a ciphertext -/

/-- The ciphertext `ct` has `slot_count` slots, is at level `l`, has scale `s`
and its slot `j` encodes the value `f j` at that scale. -/
def Holds (P : Params) (ct : Ciphertext) (l : Nat) (s : ℚ) (f : Nat → ℚ) : Prop :=
  ct.raw.length = P.slot_count ∧ ct.level = l ∧ ct.scale = s ∧
    ∀ j, j < P.slot_count → ct.raw.getD j 0 = f j * s

/-- A ciphertext with the right number of slots and a nonzero scale. -/
def WF (P : Params) (ct : Ciphertext) : Prop :=
  ct.raw.length = P.slot_count ∧ ct.scale ≠ 0

/-- No modulus of the chain is zero. -/
def Params.Valid (P : Params) : Prop := ∀ q ∈ P.coeff_modulus, q ≠ 0

/-- Scale of a ciphertext of scale `s` at level `l` after a multiplication by an
operand of the same scale followed by a rescaling. -/
def scaleAfterMul (P : Params) (l : Nat) (s : ℚ) : ℚ := s * s / P.modulus l

/-- Factor carried by the linear term of `apply_poly_sigmoid_inplace`, for an
input at level `l` with scale `s`: the two scale reassignments of `ct_in`
replace the scale `s` by the scale of `ct_x3`. -/
def sigmoidLinFactor (P : Params) (l : Nat) (s : ℚ) : ℚ :=
  P.modulus l ^ 2 * P.modulus (l - 1) / s ^ 3

/-- Factor carried by the cubic term of `apply_poly_sigmoid_inplace`, for an
input at level `l` with scale `s`: the first scale reassignment of `ct_in`
replaces the scale `s` by the scale of `ct_x2`. -/
def sigmoidCubicFactor (P : Params) (l : Nat) (s : ℚ) : ℚ := P.modulus l / s

/-- Scale of the result of `apply_poly_sigmoid_inplace`, for an input at level
`l` with scale `s`. -/
def sigmoidScale (P : Params) (l : Nat) (s : ℚ) : ℚ :=
  scaleAfterMul P (l - 2) (scaleAfterMul P (l - 1) (scaleAfterMul P l s))

/-- The cleartext vector used by `mask_slot_inplace`. -/
def oneHot (S index : Nat) : List ℚ := (List.replicate S (0 : ℚ)).set index 1

/-! ## Level and scale along the fixed pipeline -/

/-- Level and scale after `apply_poly_relu_inplace`, from the level `l` and the
scale `s` on entry. -/
def afterRelu (P : Params) (l : Nat) (s : ℚ) : Nat × ℚ :=
  (l - 2, scaleAfterMul P (l - 1) (scaleAfterMul P l s))

/-- Level and scale of the result of `process_layer_linear` for `r` rows, from
the level `l` and the scale `s` of its input: without rows the result is the
fresh accumulator. -/
def afterLayer (P : Params) (r : Nat) (l : Nat) (s : ℚ) : Nat × ℚ :=
  if r = 0 then (P.top, P.scale)
  else (l - 2, scaleAfterMul P (l - 1) (scaleAfterMul P l s))

/-- Level and scale with which `ct_data3` enters the sigmoid in `checkStatus`,
for layers of `r0`, `r1` and `r2` rows. -/
def sigmoidEntry (P : Params) (r0 r1 r2 : Nat) : Nat × ℚ :=
  let m1 := afterLayer P r0 P.top P.scale
  let m2 := afterRelu P m1.1 m1.2
  let m3 := afterLayer P r1 m2.1 m2.2
  let m4 := afterRelu P m3.1 m3.2
  afterLayer P r2 m4.1 m4.2

/-- What `checkStatus` computes as the model diagnosis, expressed on the input of
the final activation of the plaintext network: the sigmoid polynomial with its
linear and cubic terms scaled by the factors of the scale reassignments. -/
def scaled_diagnosis (P : Params) (W0 : List (List ℚ)) (b0 : List ℚ)
    (W1 : List (List ℚ)) (b1 : List ℚ) (W2 : List (List ℚ)) (b2 : List ℚ)
    (x : List ℚ) : Int :=
  let m := sigmoidEntry P W0.length W1.length W2.length
  let z := (plain_preactivation W0 b0 W1 b1 W2 b2 x).getD 0 0
  if 0.5 + 0.197 * (sigmoidLinFactor P m.1 m.2 * z)
      - 0.004 * (sigmoidCubicFactor P m.1 m.2 * z ^ 3) > 0.5 then 1 else 0

/-- Slot contents after `process_layer_linear`, from those of its input. -/
def slotAffine (S : Nat) (W : List (List ℚ)) (b : List ℚ) (x : Nat → ℚ) (j : Nat) : ℚ :=
  (if j < W.length then ∑ t ∈ Finset.range S, (W.getD j []).getD t 0 * x t else 0)
    + b.getD j 0

/-- Slot contents after `apply_poly_relu_inplace`, from those of its input. -/
def slotRelu (size : Nat) (x : Nat → ℚ) (j : Nat) : ℚ :=
  if j < size then 0.25 * x j ^ 2 + 0.5 * x j else 0

/-! ## Concrete parameter sets used to instantiate the theorems -/

/-- A small parameter set: four slots, three levels above the last one. -/
def smallParams : Params := ⟨4, [17, 13, 11, 7, 19], 8⟩

/-- The parameters set up by `main`: polynomial modulus degree 32768, hence
16384 slots, a chain of twenty prime moduli of 60, 40 (eighteen times) and 60
bits, and the scale `2^40`. -/
def driverParams : Params :=
  ⟨16384,
   [1152921504598720513, 1099493343233, 1099497799681, 1099498258433, 1099499175937,
    1099499569153, 1099499765761, 1099500421121, 1099500617729, 1099500814337,
    1099501731841, 1099502518273, 1099502714881, 1099503370241, 1099503894529,
    1099504549889, 1099506515969, 1099507695617, 1099510054913, 1152921504606584833],
   2 ^ 40⟩

/-- A fresh ciphertext of `driverParams`: the encryption of the cleartext vector
`[1]` encoded at the top level with the base scale. -/
def driverCt : Ciphertext :=
  ⟨(List.range 16384).map (fun j => ([1] : List ℚ).getD j 0 * 2 ^ 40), 18, 2 ^ 40⟩

/-- A data row: thirty features equal to 0, then the label 1. -/
def zeroRow : List ℚ := List.replicate 30 0 ++ [1]

/-- A ciphertext of `smallParams` at the top level holding `1, 2, 3, 4`. -/
def smallCt : Ciphertext := ⟨[8, 16, 24, 32], 3, 8⟩

/-! ## Slot-level facts about the list operations of the backend model -/

theorem getD_range_map (S : Nat) (g : Nat → ℚ) (j : Nat) :
    ((List.range S).map g).getD j 0 = if j < S then g j else 0 := by
  by_cases h : j < S
  · simp [List.getD_eq_getElem?_getD, h]
  · rw [List.getD_eq_default _ _ (by simpa using h)]
    simp [h]

theorem getD_zipWith_mul (a b : List ℚ) (j : Nat) :
    (List.zipWith (· * ·) a b).getD j 0 = a.getD j 0 * b.getD j 0 := by
  simp only [List.getD_eq_getElem?_getD, List.getElem?_zipWith]
  cases a[j]? <;> cases b[j]? <;> simp

theorem getD_zipWith_add (a b : List ℚ) (h : a.length = b.length) (j : Nat) :
    (List.zipWith (· + ·) a b).getD j 0 = a.getD j 0 + b.getD j 0 := by
  simp only [List.getD_eq_getElem?_getD, List.getElem?_zipWith]
  by_cases hj : j < a.length
  · have hb : j < b.length := h ▸ hj
    simp [List.getElem?_eq_getElem hj, List.getElem?_eq_getElem hb]
  · have hb : ¬ j < b.length := h ▸ hj
    simp [List.getElem?_eq_none (not_lt.mp hj), List.getElem?_eq_none (not_lt.mp hb)]

theorem getD_map_div (a : List ℚ) (q : ℚ) (j : Nat) :
    (a.map (fun m => m / q)).getD j 0 = a.getD j 0 / q := by
  simp only [List.getD_eq_getElem?_getD, List.getElem?_map]
  cases a[j]? <;> simp

theorem getD_rotate (a : List ℚ) (n j : Nat) (hj : j < a.length) :
    (a.rotate n).getD j 0 = a.getD ((j + n) % a.length) 0 := by
  have h1 : j < (a.rotate n).length := by simpa using hj
  have h2 : (j + n) % a.length < a.length := Nat.mod_lt _ (by omega)
  rw [List.getD_eq_getElem _ _ h1, List.getD_eq_getElem _ _ h2, List.getElem_rotate]

theorem Holds.of_WF {P : Params} {ct : Ciphertext} (h : WF P ct) :
    Holds P ct ct.level ct.scale ct.value := by
  refine ⟨h.1, rfl, rfl, fun j _ => ?_⟩
  unfold Ciphertext.value
  field_simp [h.2]

theorem Holds.value_eq {P : Params} {ct : Ciphertext} {l : Nat} {s : ℚ} {f : Nat → ℚ}
    (h : Holds P ct l s f) (hs : s ≠ 0) {j : Nat} (hj : j < P.slot_count) :
    ct.value j = f j := by
  obtain ⟨_, _, h3, h4⟩ := h
  unfold Ciphertext.value
  rw [h4 j hj, h3]
  field_simp

theorem Holds.congr {P : Params} {ct : Ciphertext} {l : Nat} {s : ℚ} {f g : Nat → ℚ}
    (h : Holds P ct l s f) (hfg : ∀ j, j < P.slot_count → f j = g j) :
    Holds P ct l s g :=
  ⟨h.1, h.2.1, h.2.2.1, fun j hj => by rw [h.2.2.2 j hj, hfg j hj]⟩

/-! ## Effect of the backend primitives and of the two plain operations -/

theorem encode_eq {P : Params} {vec : List ℚ} (hv : vec.length ≤ P.slot_count) (l : Nat)
    (s : ℚ) : Encoder.encode P vec l s =
      .ok ⟨(List.range P.slot_count).map (fun j => vec.getD j 0 * s), l, s⟩ := by
  simp [Encoder.encode, not_lt.mpr hv]

theorem multiply_holds {P : Params} {a b : Ciphertext} {l : Nat} {s t : ℚ} {f g : Nat → ℚ}
    (ha : Holds P a l s f) (hb : Holds P b l t g) :
    ∃ c, Evaluator.multiply a b = .ok c ∧ Holds P c l (s * t) (fun j => f j * g j) := by
  obtain ⟨a1, a2, a3, a4⟩ := ha
  obtain ⟨b1, b2, b3, b4⟩ := hb
  refine ⟨{ a with raw := List.zipWith (· * ·) a.raw b.raw, scale := a.scale * b.scale },
    by simp [Evaluator.multiply, a2, b2], ?_, a2, by simp [a3, b3], ?_⟩
  · simp [a1, b1]
  · intro j hj
    simp only [getD_zipWith_mul, a4 j hj, b4 j hj]
    ring

theorem add_holds {P : Params} {a b : Ciphertext} {l : Nat} {s : ℚ} {f g : Nat → ℚ}
    (ha : Holds P a l s f) (hb : Holds P b l s g) :
    ∃ c, Evaluator.add a b = .ok c ∧ Holds P c l s (fun j => f j + g j) := by
  obtain ⟨a1, a2, a3, a4⟩ := ha
  obtain ⟨b1, b2, b3, b4⟩ := hb
  refine ⟨{ a with raw := List.zipWith (· + ·) a.raw b.raw },
    by simp [Evaluator.add, a2, b2, a3, b3], ?_, a2, a3, ?_⟩
  · simp [a1, b1]
  · intro j hj
    simp only [getD_zipWith_add _ _ (a1.trans b1.symm), a4 j hj, b4 j hj]
    ring

theorem rescale_holds {P : Params} {ct : Ciphertext} {l : Nat} {s : ℚ} {f : Nat → ℚ}
    (h : Holds P ct l s f) (hl : l ≠ 0) :
    ∃ c, Evaluator.rescale_to_next P ct = .ok c ∧
      Holds P c (l - 1) (s / P.modulus l) f := by
  obtain ⟨h1, h2, h3, h4⟩ := h
  refine ⟨⟨ct.raw.map (fun m => m / P.modulus ct.level), ct.level - 1,
    ct.scale / P.modulus ct.level⟩, by simp [Evaluator.rescale_to_next, h2, hl], ?_,
    by simp [h2], by simp [h2, h3], ?_⟩
  · simp [h1]
  · intro j hj
    simp only [getD_map_div, h4 j hj, h2]
    ring

theorem mod_switch_holds {P : Params} {ct : Ciphertext} {l t : Nat} {s : ℚ} {f : Nat → ℚ}
    (h : Holds P ct l s f) (ht : t ≤ l) :
    ∃ c, Evaluator.mod_switch_to ct t = .ok c ∧ Holds P c t s f := by
  obtain ⟨h1, h2, h3, h4⟩ := h
  exact ⟨{ ct with level := t }, by simp [Evaluator.mod_switch_to, h2, not_lt.mpr ht],
    h1, rfl, h3, h4⟩

theorem set_scale_holds {P : Params} {ct : Ciphertext} {l : Nat} {s : ℚ} {f : Nat → ℚ}
    (h : Holds P ct l s f) (t : ℚ) (ht : t ≠ 0) :
    Holds P { ct with scale := t } l t (fun j => f j * s / t) := by
  obtain ⟨h1, h2, _, h4⟩ := h
  refine ⟨h1, h2, rfl, fun j hj => ?_⟩
  show ct.raw.getD j 0 = _
  rw [h4 j hj]
  field_simp

theorem add_plain_inplace_holds {P : Params} {ct : Ciphertext} {l : Nat} {s : ℚ}
    {f : Nat → ℚ} (h : Holds P ct l s f) (vec : List ℚ) (hv : vec.length ≤ P.slot_count) :
    ∃ c, add_plain_inplace P ct vec = ⟨c, none⟩ ∧
      Holds P c l s (fun j => f j + vec.getD j 0) := by
  obtain ⟨h1, h2, h3, h4⟩ := h
  refine ⟨⟨List.zipWith (· + ·) ct.raw
      ((List.range P.slot_count).map (fun j => vec.getD j 0 * ct.scale)), ct.level, ct.scale⟩,
    by simp [add_plain_inplace, encode_eq hv, Evaluator.add_plain], ?_, h2, h3, ?_⟩
  · simp [h1]
  · intro j hj
    show (List.zipWith (· + ·) ct.raw _).getD j 0 = _
    rw [getD_zipWith_add _ _ (by simp [h1]), getD_range_map, if_pos hj, h4 j hj, h3]
    ring

theorem multiply_plain_inplace_holds {P : Params} {ct : Ciphertext} {l : Nat} {s : ℚ}
    {f : Nat → ℚ} (h : Holds P ct l s f) (vec : List ℚ) (hv : vec.length ≤ P.slot_count)
    (hl : l ≠ 0) :
    ∃ c, multiply_plain_inplace P ct vec = ⟨c, none⟩ ∧
      Holds P c (l - 1) (s * s / P.modulus l) (fun j => f j * vec.getD j 0) := by
  obtain ⟨h1, h2, h3, h4⟩ := h
  refine ⟨⟨(List.zipWith (· * ·) ct.raw
      ((List.range P.slot_count).map (fun j => vec.getD j 0 * ct.scale))).map
        (fun m => m / P.modulus ct.level), ct.level - 1,
      ct.scale * ct.scale / P.modulus ct.level⟩,
    by simp [multiply_plain_inplace, encode_eq hv, Evaluator.multiply_plain,
      Evaluator.rescale_to_next, h2, hl], ?_, by simp [h2], by simp [h2, h3], ?_⟩
  · simp [h1]
  · intro j hj
    show (List.map _ (List.zipWith (· * ·) ct.raw _)).getD j 0 = _
    rw [getD_map_div, getD_zipWith_mul, getD_range_map, if_pos hj, h4 j hj, h3, h2]
    ring

/-! ## The rotate-and-add reduction -/

theorem rotate_holds {P : Params} {ct : Ciphertext} {l : Nat} {s : ℚ} {f : Nat → ℚ}
    (h : Holds P ct l s f) {i : Nat} (hi : i < P.slot_count) :
    ∃ c, Evaluator.rotate_vector P ct i = .ok c ∧
      Holds P c l s (fun j => f ((j + i) % P.slot_count)) := by
  obtain ⟨h1, h2, h3, h4⟩ := h
  refine ⟨⟨ct.raw.rotate i, ct.level, ct.scale⟩,
    by simp [Evaluator.rotate_vector, not_le.mpr hi], ?_, h2, h3, ?_⟩
  · simp [h1]
  · intro j hj
    show (ct.raw.rotate i).getD j 0 = _
    rw [getD_rotate _ _ _ (by omega), h1]
    exact h4 _ (Nat.mod_lt _ (by omega))

theorem sum_cyclic_shift (S : Nat) (f : Nat → ℚ) (j : Nat) :
    ∑ t ∈ Finset.range S, f ((j + t) % S) = ∑ t ∈ Finset.range S, f t := by
  induction j with
  | zero =>
    apply Finset.sum_congr rfl
    intro t ht
    rw [Nat.zero_add, Nat.mod_eq_of_lt (Finset.mem_range.mp ht)]
  | succ j ih =>
    have h1 := Finset.sum_range_succ (fun t => f ((j + t) % S)) S
    have h2 := Finset.sum_range_succ' (fun t => f ((j + t) % S)) S
    have h3 : f ((j + S) % S) = f ((j + 0) % S) := by simp
    have h4 : ∑ t ∈ Finset.range S, f ((j + 1 + t) % S)
        = ∑ t ∈ Finset.range S, f ((j + (t + 1)) % S) := by
      apply Finset.sum_congr rfl
      intro t _
      congr 2
      omega
    rw [h4, ← ih]
    linarith

theorem sum_all_slots_loop_holds {P : Params} {n : Nat} (hS : P.slot_count = 2 ^ n)
    (f : Nat → ℚ) (l : Nat) (s : ℚ) :
    ∀ (d k fuel : Nat) (ct : Ciphertext), k + d = n → d + 1 ≤ fuel →
      Holds P ct l s (fun j => ∑ t ∈ Finset.range (2 ^ k), f ((j + t) % P.slot_count)) →
      ∃ c, sum_all_slots_loop P fuel (2 ^ k) ct = ⟨c, none⟩ ∧
        Holds P c l s (fun _ => ∑ t ∈ Finset.range P.slot_count, f t) := by
  intro d
  induction d with
  | zero =>
    intro k fuel ct hk hfuel h
    obtain ⟨fuel, rfl⟩ : ∃ m, fuel = m + 1 := ⟨fuel - 1, by omega⟩
    have hkn : k = n := by omega
    subst hkn
    have hpos : 0 < 2 ^ k := Nat.pos_pow_of_pos k (by norm_num)
    have hnot : ¬ 2 ^ k ≤ P.slot_count / 2 := by
      rw [hS]; omega
    refine ⟨ct, by simp [sum_all_slots_loop, hnot], ?_⟩
    apply h.congr
    intro j _
    rw [← hS]
    exact sum_cyclic_shift _ f j
  | succ d ih =>
    intro k fuel ct hk hfuel h
    obtain ⟨fuel, rfl⟩ : ∃ m, fuel = m + 1 := ⟨fuel - 1, by omega⟩
    have hn : n = (k + d) + 1 := by omega
    have hS2 : P.slot_count = 2 ^ k * 2 ^ d * 2 := by rw [hS, hn, pow_succ, pow_add]
    have hpos : 0 < 2 ^ k := Nat.pos_pow_of_pos k (by norm_num)
    have hposd : 0 < 2 ^ d := Nat.pos_pow_of_pos d (by norm_num)
    have hle : 2 ^ k ≤ P.slot_count / 2 := by
      rw [hS2, Nat.mul_div_cancel _ (by norm_num : 0 < 2)]
      exact Nat.le_mul_of_pos_right _ hposd
    have hlt : 2 ^ k < P.slot_count := by
      have := Nat.div_le_self P.slot_count 2
      have : 0 < P.slot_count / 2 := lt_of_lt_of_le hpos hle
      omega
    obtain ⟨r, hr, hrh⟩ := rotate_holds h hlt
    obtain ⟨c1, hc1, hc1h⟩ := add_holds h hrh
    have hnext := ih (k + 1) fuel c1 (by omega) (by omega) (by
      apply hc1h.congr
      intro j _
      rw [pow_succ, Nat.mul_two, Finset.sum_range_add]
      congr 1
      apply Finset.sum_congr rfl
      intro t _
      congr 1
      rw [Nat.mod_add_mod]
      congr 1
      omega)
    obtain ⟨c, hc, hch⟩ := hnext
    refine ⟨c, ?_, hch⟩
    rw [pow_succ] at hc
    simp [sum_all_slots_loop, hle, hr, hc1, hc]

theorem sum_all_slots_inplace_holds {P : Params} {n : Nat} (hS : P.slot_count = 2 ^ n)
    {ct : Ciphertext} {l : Nat} {s : ℚ} {f : Nat → ℚ} (h : Holds P ct l s f) :
    ∃ c, sum_all_slots_inplace P ct = ⟨c, none⟩ ∧
      Holds P c l s (fun _ => ∑ t ∈ Finset.range P.slot_count, f t) := by
  have hfuel : n + 1 ≤ P.slot_count + 1 := by
    rw [hS]
    exact Nat.succ_le_succ (Nat.lt_two_pow n).le
  have h0 : Holds P ct l s
      (fun j => ∑ t ∈ Finset.range (2 ^ 0), f ((j + t) % P.slot_count)) := by
    apply h.congr
    intro j hj
    simp [Nat.mod_eq_of_lt hj]
  simpa [sum_all_slots_inplace] using
    sum_all_slots_loop_holds hS f l s n 0 (P.slot_count + 1) ct (by omega) hfuel h0

theorem sum_range_getD (v : List ℚ) : ∀ S : Nat, v.length ≤ S →
    ∑ t ∈ Finset.range S, v.getD t 0 = v.sum := by
  induction v with
  | nil => intro S _; simp
  | cons a w ih =>
    intro S hS
    obtain ⟨S, rfl⟩ : ∃ m, S = m + 1 := ⟨S - 1, by simp at hS; omega⟩
    rw [Finset.sum_range_succ']
    simp only [List.getD_cons_succ, List.getD_cons_zero, List.sum_cons]
    rw [ih S (by simpa using hS)]
    ring

theorem encode_holds {P : Params} {vec : List ℚ} (hv : vec.length ≤ P.slot_count)
    (l : Nat) (s : ℚ) :
    ∃ pt, Encoder.encode P vec l s = .ok pt ∧
      Holds P (Encryptor.encrypt pt) l s (fun j => vec.getD j 0) := by
  refine ⟨_, encode_eq hv l s, by simp [Encryptor.encrypt], rfl, rfl, fun j hj => ?_⟩
  simp [Encryptor.encrypt, getD_range_map, hj]

theorem Params.Valid.modulus_ne_zero {P : Params} (h : P.Valid) (k : Nat) :
    P.modulus k ≠ 0 := by
  unfold Params.modulus
  rw [Nat.cast_ne_zero]
  by_cases hk : k < P.coeff_modulus.length
  · rw [List.getD_eq_getElem _ _ hk]
    exact h _ (List.getElem_mem _)
  · rw [List.getD_eq_default _ _ (not_lt.mp hk)]
    exact one_ne_zero

theorem scaleAfterMul_ne_zero {P : Params} (h : P.Valid) (l : Nat) {s : ℚ} (hs : s ≠ 0) :
    scaleAfterMul P l s ≠ 0 := by
  unfold scaleAfterMul
  exact div_ne_zero (mul_ne_zero hs hs) (h.modulus_ne_zero l)

theorem getD_replicate (n : Nat) (a : ℚ) (j : Nat) :
    (List.replicate n a).getD j 0 = if j < n then a else 0 := by
  by_cases h : j < n
  · simp [List.getD_eq_getElem?_getD, h]
  · rw [List.getD_eq_default _ _ (by simpa using h)]
    simp [h]

theorem length_oneHot (S index : Nat) : (oneHot S index).length = S := by
  simp [oneHot]

theorem getD_oneHot {S index : Nat} (hi : index < S) (j : Nat) :
    (oneHot S index).getD j 0 = if j = index then 1 else 0 := by
  unfold oneHot
  by_cases h : j = index
  · subst h
    simp [List.getD_eq_getElem?_getD, hi]
  · rw [List.getD_eq_getElem?_getD, List.getElem?_set_ne (Ne.symm h),
      ← List.getD_eq_getElem?_getD, getD_replicate]
    simp [h]

/-! ## Effect of the helper operations -/

theorem mask_slot_inplace_eq {P : Params} (ct : Ciphertext) {index : Nat}
    (hi : index < P.slot_count) :
    mask_slot_inplace P ct index = multiply_plain_inplace P ct (oneHot P.slot_count index) := by
  simp [mask_slot_inplace, oneHot, not_le.mpr hi]

theorem mask_slot_inplace_holds {P : Params} {ct : Ciphertext} {l : Nat} {s : ℚ}
    {f : Nat → ℚ} (h : Holds P ct l s f) {index : Nat} (hi : index < P.slot_count)
    (hl : l ≠ 0) :
    ∃ c, mask_slot_inplace P ct index = ⟨c, none⟩ ∧
      Holds P c (l - 1) (scaleAfterMul P l s) (fun j => if j = index then f j else 0) := by
  obtain ⟨c, hc, hch⟩ :=
    multiply_plain_inplace_holds h _ (le_of_eq (length_oneHot P.slot_count index)) hl
  refine ⟨c, by rw [mask_slot_inplace_eq ct hi, hc], hch.congr ?_⟩
  intro j _
  rw [getD_oneHot hi]
  split_ifs <;> simp

theorem apply_poly_relu_inplace_holds {P : Params} {ct : Ciphertext} {l : Nat} {s : ℚ}
    {f : Nat → ℚ} (h : Holds P ct l s f) {size : Nat} (hsz : size ≤ P.slot_count)
    (hl : 2 ≤ l) :
    ∃ c, apply_poly_relu_inplace P ct size = ⟨c, none⟩ ∧
      Holds P c (l - 2) (scaleAfterMul P (l - 1) (scaleAfterMul P l s))
        (fun j => if j < size then 0.25 * f j ^ 2 + 0.5 * f j else 0) := by
  obtain ⟨lin, hlin, hlinh⟩ := multiply_plain_inplace_holds h (List.replicate size 0.5)
    (by simpa using hsz) (by omega)
  obtain ⟨lp1, hlp1, hlp1h⟩ := add_plain_inplace_holds hlinh (List.replicate size 1.0)
    (by simpa using hsz)
  obtain ⟨prod, hprod, hprodh⟩ := multiply_holds hlinh hlp1h
  obtain ⟨res, hres, hresh⟩ := rescale_holds hprodh (by omega : l - 1 ≠ 0)
  refine ⟨res, ?_, ?_⟩
  · simp [apply_poly_relu_inplace, hlin, hlp1, hprod, Evaluator.relinearize, hres]
  · have hlevel : l - 1 - 1 = l - 2 := by omega
    rw [hlevel] at hresh
    unfold scaleAfterMul
    refine hresh.congr ?_
    intro j _
    simp only [getD_replicate]
    split_ifs <;> norm_num
    ring

/-! ## The linear layer -/

theorem row_holds {P : Params} {n : Nat} (hS : P.slot_count = 2 ^ n) {ct_in : Ciphertext}
    {l : Nat} {s : ℚ} {x : Nat → ℚ} (h : Holds P ct_in l s x) (row : List ℚ)
    (hrow : row.length ≤ P.slot_count) {i : Nat} (hi : i < P.slot_count) (hl : 2 ≤ l) :
    ∃ c1 c2 c, multiply_plain_inplace P ct_in row = ⟨c1, none⟩ ∧
      sum_all_slots_inplace P c1 = ⟨c2, none⟩ ∧
      mask_slot_inplace P c2 i = ⟨c, none⟩ ∧
      Holds P c (l - 2) (scaleAfterMul P (l - 1) (scaleAfterMul P l s))
        (fun j => if j = i then ∑ t ∈ Finset.range P.slot_count, x t * row.getD t 0
          else 0) := by
  obtain ⟨c1, h1, hh1⟩ := multiply_plain_inplace_holds h row hrow (by omega)
  obtain ⟨c2, h2, hh2⟩ := sum_all_slots_inplace_holds hS hh1
  obtain ⟨c, h3, hh3⟩ := mask_slot_inplace_holds hh2 hi (by omega : l - 1 ≠ 0)
  have hlevel : l - 1 - 1 = l - 2 := by omega
  rw [hlevel] at hh3
  exact ⟨c1, c2, c, h1, h2, h3, hh3⟩

theorem process_layer_loop_aligned {P : Params} {n : Nat} (hS : P.slot_count = 2 ^ n)
    {ct_in : Ciphertext} {l : Nat} {s : ℚ} {x : Nat → ℚ} (h : Holds P ct_in l s x)
    (hl : 2 ≤ l) :
    ∀ (rest : List (List ℚ)) (i : Nat) (ct_final : Ciphertext) (g : Nat → ℚ),
      (∀ row ∈ rest, row.length ≤ P.slot_count) → i + rest.length ≤ P.slot_count →
      Holds P ct_final (l - 2) (scaleAfterMul P (l - 1) (scaleAfterMul P l s)) g →
      ∃ c, process_layer_loop P ct_in rest i ct_final = .ok c ∧
        Holds P c (l - 2) (scaleAfterMul P (l - 1) (scaleAfterMul P l s))
          (fun j => g j + if i ≤ j ∧ j < i + rest.length then
            ∑ t ∈ Finset.range P.slot_count, x t * (rest.getD (j - i) []).getD t 0
            else 0) := by
  intro rest
  induction rest with
  | nil =>
    intro i ct_final g _ _ hf
    refine ⟨ct_final, rfl, hf.congr ?_⟩
    intro j _
    have : ¬ (i ≤ j ∧ j < i + ([] : List (List ℚ)).length) := by simp
    rw [if_neg this, add_zero]
  | cons row rest ih =>
    intro i ct_final g hrows hlen hf
    simp only [List.length_cons] at hlen
    obtain ⟨c1, c2, c, h1, h2, h3, hc⟩ := row_holds hS h row
      (hrows row (List.mem_cons_self _ _)) (by omega : i < P.slot_count) hl
    obtain ⟨f2, hadd, hf2⟩ := add_holds hf hc
    obtain ⟨out, hout, houth⟩ := ih (i + 1) f2 _
      (fun r hr => hrows r (List.mem_cons_of_mem _ hr)) (by omega) hf2
    refine ⟨out, ?_, houth.congr ?_⟩
    · have hlv : ct_final.level = c.level := by rw [hf.2.1, hc.2.1]
      simp [process_layer_loop, h1, h2, h3, hlv, hadd, hout]
    · intro j _
      simp only [List.length_cons]
      by_cases hji : j = i
      · subst hji
        simp
      · by_cases hlt : j < i
        · have e1 : ¬ (i + 1 ≤ j ∧ j < i + 1 + rest.length) := by omega
          have e2 : ¬ (i ≤ j ∧ j < i + (rest.length + 1)) := by omega
          simp [hji, e1, e2]
        · obtain ⟨k, rfl⟩ : ∃ k, j = i + 1 + k := ⟨j - (i + 1), by omega⟩
          have e1 : i + 1 + k - (i + 1) = k := by omega
          have e2 : i + 1 + k - i = k + 1 := by omega
          have e3 : (i + 1 ≤ i + 1 + k ∧ i + 1 + k < i + 1 + rest.length)
              ↔ (i ≤ i + 1 + k ∧ i + 1 + k < i + (rest.length + 1)) := by omega
          simp only [e1, e2, List.getD_cons_succ, if_neg hji, add_zero]
          by_cases hk : i + 1 ≤ i + 1 + k ∧ i + 1 + k < i + 1 + rest.length
          · rw [if_pos hk, if_pos (e3.mp hk)]
          · rw [if_neg hk, if_neg (fun hh => hk (e3.mpr hh))]

theorem fresh_zero_holds (P : Params) :
    ∃ pt, Encoder.encode P (List.replicate P.slot_count 0.0) P.top P.scale = .ok pt ∧
      Holds P (Encryptor.encrypt pt) P.top P.scale (fun _ => 0) := by
  obtain ⟨pt, hpt, hh⟩ := @encode_holds P (List.replicate P.slot_count 0.0)
    (le_of_eq (List.length_replicate _ _)) P.top P.scale
  refine ⟨pt, hpt, hh.congr ?_⟩
  intro j _
  rw [getD_replicate]
  norm_num

theorem set_scale_zero_holds {P : Params} {ct : Ciphertext} {l : Nat} {s : ℚ}
    (h : Holds P ct l s (fun _ => 0)) (t : ℚ) :
    Holds P { ct with scale := t } l t (fun _ => 0) := by
  obtain ⟨h1, h2, _, h4⟩ := h
  refine ⟨h1, h2, rfl, fun j hj => ?_⟩
  show ct.raw.getD j 0 = _
  rw [h4 j hj]
  simp

theorem process_layer_linear_holds {P : Params} {n : Nat} (hS : P.slot_count = 2 ^ n)
    {ct_in : Ciphertext} {l : Nat} {s : ℚ} {x : Nat → ℚ} (h : Holds P ct_in l s x)
    (hl : 2 ≤ l) (hltop : l ≤ P.top) (weights : List (List ℚ)) (biases : List ℚ)
    (hrows : ∀ row ∈ weights, row.length ≤ P.slot_count) (hr0 : 1 ≤ weights.length)
    (hr : weights.length ≤ P.slot_count) (hb : biases.length ≤ P.slot_count) :
    ∃ out, process_layer_linear P ct_in weights biases = .ok out ∧
      Holds P out (l - 2) (scaleAfterMul P (l - 1) (scaleAfterMul P l s))
        (fun j => (if j < weights.length then
          ∑ t ∈ Finset.range P.slot_count, (weights.getD j []).getD t 0 * x t else 0)
          + biases.getD j 0) := by
  obtain ⟨pt, hpt, hz⟩ := fresh_zero_holds P
  cases weights with
  | nil => simp at hr0
  | cons row rest =>
    simp only [List.length_cons] at hr
    obtain ⟨c1, c2, c, h1, h2, h3, hc⟩ := row_holds hS h row
      (hrows row (List.mem_cons_self _ _)) (by omega : 0 < P.slot_count) hl
    obtain ⟨sw, hsw, hswh⟩ := mod_switch_holds hz (by omega : l - 2 ≤ P.top)
    have hal := set_scale_zero_holds hswh (scaleAfterMul P (l - 1) (scaleAfterMul P l s))
    obtain ⟨f2, hadd, hf2⟩ := add_holds hal hc
    obtain ⟨fin, hfin, hfinh⟩ := process_layer_loop_aligned hS h hl rest 1 f2 _
      (fun r hr => hrows r (List.mem_cons_of_mem _ hr)) (by omega) hf2
    obtain ⟨out, hout, houth⟩ := add_plain_inplace_holds hfinh biases hb
    refine ⟨out, ?_, houth.congr ?_⟩
    · have hlv : (Encryptor.encrypt pt).level ≠ c.level := by
        rw [hz.2.1, hc.2.1]
        omega
      have hcl : c.level = l - 2 := hc.2.1
      have hcs : c.scale = scaleAfterMul P (l - 1) (scaleAfterMul P l s) := hc.2.2.1
      rw [hcl] at hlv
      simp [process_layer_linear, hpt, process_layer_loop, h1, h2, h3, hlv, hcl, hcs, hsw,
        hadd, hfin, hout]
    · intro j _
      simp only [List.length_cons]
      cases j with
      | zero => simp [mul_comm]
      | succ k =>
        have e1 : k + 1 - 1 = k := by omega
        have e2 : (1 ≤ k + 1 ∧ k + 1 < 1 + rest.length) ↔ k + 1 < rest.length + 1 := by omega
        simp only [e1, List.getD_cons_succ, zero_add]
        have hne : ¬ (k + 1 = 0) := by omega
        rw [if_neg hne, zero_add]
        by_cases hk : k + 1 < rest.length + 1
        · rw [if_pos hk, if_pos (e2.mpr hk)]
          congr 1
          apply Finset.sum_congr rfl
          intro t _
          ring
        · rw [if_neg hk, if_neg (fun hh => hk (e2.mp hh))]

/-! ## The sigmoid approximation -/

theorem apply_poly_sigmoid_inplace_holds {P : Params} (hP : P.Valid) {ct : Ciphertext}
    {l : Nat} {s : ℚ} {x : Nat → ℚ} (h : Holds P ct l s x) (hs : s ≠ 0) {size : Nat}
    (hsz : size ≤ P.slot_count) (hl : 3 ≤ l) :
    ∃ c, apply_poly_sigmoid_inplace P ct size = ⟨c, none⟩ ∧
      Holds P c (l - 3) (sigmoidScale P l s)
        (fun j => if j < size then
          0.5 + 0.197 * (sigmoidLinFactor P l s * x j)
            - 0.004 * (sigmoidCubicFactor P l s * x j ^ 3) else 0) := by
  have hq := hP.modulus_ne_zero l
  have hq1 := hP.modulus_ne_zero (l - 1)
  have hs1 : s * s / P.modulus l ≠ 0 := scaleAfterMul_ne_zero hP l hs
  have hs3 : s * s / P.modulus l * (s * s / P.modulus l) / P.modulus (l - 1) ≠ 0 :=
    scaleAfterMul_ne_zero hP (l - 1) hs1
  -- 1. x²
  obtain ⟨sq, hsq, hsqh⟩ := multiply_holds h h
  obtain ⟨x2, hx2, hx2h⟩ := rescale_holds hsqh (by omega : l ≠ 0)
  have hx2l : x2.level = l - 1 := hx2h.2.1
  have hx2s : x2.scale = s * s / P.modulus l := hx2h.2.2.1
  obtain ⟨sw1, hsw1, hsw1h⟩ := mod_switch_holds h (by omega : l - 1 ≤ l)
  have hin1 := set_scale_holds hsw1h (s * s / P.modulus l) hs1
  -- 2. x³
  obtain ⟨cube, hcube, hcubeh⟩ := multiply_holds hx2h hin1
  obtain ⟨x3, hx3, hx3h⟩ := rescale_holds hcubeh (by omega : l - 1 ≠ 0)
  have hlev2 : l - 1 - 1 = l - 2 := by omega
  rw [hlev2] at hx3h
  have hx3l : x3.level = l - 2 := hx3h.2.1
  have hx3s : x3.scale = s * s / P.modulus l * (s * s / P.modulus l) / P.modulus (l - 1) :=
    hx3h.2.2.1
  obtain ⟨sw2, hsw2, hsw2h⟩ := mod_switch_holds hin1 (by omega : l - 2 ≤ l - 1)
  obtain ⟨x2b, hx2b, _⟩ := mod_switch_holds hx2h (by omega : l - 2 ≤ l - 1)
  have hin2 := set_scale_holds hsw2h
    (s * s / P.modulus l * (s * s / P.modulus l) / P.modulus (l - 1)) hs3
  -- 3. combination
  obtain ⟨res, hres, hresh⟩ := multiply_plain_inplace_holds hx3h (List.replicate size (-0.004))
    (by simpa using hsz) (by omega)
  obtain ⟨lin, hlin, hlinh⟩ := multiply_plain_inplace_holds hin2 (List.replicate size 0.197)
    (by simpa using hsz) (by omega)
  have hlev3 : l - 2 - 1 = l - 3 := by omega
  rw [hlev3] at hresh hlinh
  have hlinl : lin.level = l - 3 := hlinh.2.1
  obtain ⟨res1, hres1, hres1h⟩ := mod_switch_holds hresh (le_refl (l - 3))
  obtain ⟨res2, hres2, hres2h⟩ := add_holds hres1h hlinh
  obtain ⟨res3, hres3, hres3h⟩ := add_plain_inplace_holds hres2h (List.replicate size 0.5)
    (by simpa using hsz)
  refine ⟨res3, ?_, ?_⟩
  · simp [apply_poly_sigmoid_inplace, hsq, Evaluator.relinearize, hx2, hx2l, hx2s, hsw1,
      hcube, hx3, hx3l, hx3s, hsw2, hx2b, hres, hlin, hlinl, hres1, hres2, hres3]
  · unfold sigmoidScale scaleAfterMul
    refine hres3h.congr ?_
    intro j _
    simp only [getD_replicate, sigmoidLinFactor, sigmoidCubicFactor]
    split_ifs
    · field_simp
      ring
    · norm_num

/-! ## The fixed pipeline of `checkStatus` -/

theorem process_layer_linear_holds_nil {P : Params} (ct_in : Ciphertext) (x : Nat → ℚ)
    (biases : List ℚ) (hb : biases.length ≤ P.slot_count) :
    ∃ out, process_layer_linear P ct_in [] biases = .ok out ∧
      Holds P out P.top P.scale (slotAffine P.slot_count [] biases x) := by
  obtain ⟨pt, hpt, hz⟩ := fresh_zero_holds P
  obtain ⟨out, hout, houth⟩ := add_plain_inplace_holds hz biases hb
  refine ⟨out, by simp [process_layer_linear, hpt, process_layer_loop, hout], houth.congr ?_⟩
  intro j _
  simp [slotAffine]

theorem process_layer_linear_holds_gen {P : Params} {n : Nat} (hS : P.slot_count = 2 ^ n)
    {ct_in : Ciphertext} {l : Nat} {s : ℚ} {x : Nat → ℚ} (h : Holds P ct_in l s x)
    (hl : 2 ≤ l) (hltop : l ≤ P.top) (weights : List (List ℚ)) (biases : List ℚ)
    (hrows : ∀ row ∈ weights, row.length ≤ P.slot_count)
    (hr : weights.length ≤ P.slot_count) (hb : biases.length ≤ P.slot_count) :
    ∃ out, process_layer_linear P ct_in weights biases = .ok out ∧
      Holds P out (afterLayer P weights.length l s).1 (afterLayer P weights.length l s).2
        (slotAffine P.slot_count weights biases x) := by
  by_cases hr0 : weights.length = 0
  · have hw : weights = [] := List.length_eq_zero.mp hr0
    subst hw
    simpa [afterLayer] using process_layer_linear_holds_nil ct_in x biases hb
  · obtain ⟨out, ho, hh⟩ := process_layer_linear_holds hS h hl hltop weights biases hrows
      (by omega) hr hb
    refine ⟨out, ho, ?_⟩
    have hm : afterLayer P weights.length l s
        = (l - 2, scaleAfterMul P (l - 1) (scaleAfterMul P l s)) := by
      simp [afterLayer, hr0]
    rw [hm]
    exact hh

theorem apply_poly_relu_inplace_holds_gen {P : Params} {ct : Ciphertext} {l : Nat} {s : ℚ}
    {f : Nat → ℚ} (h : Holds P ct l s f) {size : Nat} (hsz : size ≤ P.slot_count)
    (hl : 2 ≤ l) :
    ∃ c, apply_poly_relu_inplace P ct size = ⟨c, none⟩ ∧
      Holds P c (afterRelu P l s).1 (afterRelu P l s).2 (slotRelu size f) :=
  apply_poly_relu_inplace_holds h hsz hl

theorem afterLayer_bounds {P : Params} (hP : P.Valid) (hscale : P.scale ≠ 0) (r : Nat)
    {l : Nat} {s : ℚ} (h1 : l ≤ P.top) (h2 : s ≠ 0) :
    (afterLayer P r l s).1 ≤ P.top ∧ l - 2 ≤ (afterLayer P r l s).1 ∧
      (afterLayer P r l s).2 ≠ 0 := by
  unfold afterLayer
  split_ifs
  · exact ⟨le_refl _, by simp only; omega, hscale⟩
  · exact ⟨by simp only; omega, le_refl _,
      scaleAfterMul_ne_zero hP _ (scaleAfterMul_ne_zero hP _ h2)⟩

theorem afterRelu_bounds {P : Params} (hP : P.Valid) {l : Nat} {s : ℚ} (h1 : l ≤ P.top)
    (h2 : s ≠ 0) :
    (afterRelu P l s).1 ≤ P.top ∧ (afterRelu P l s).1 = l - 2 ∧ (afterRelu P l s).2 ≠ 0 :=
  ⟨by simp only [afterRelu]; omega, rfl,
    scaleAfterMul_ne_zero hP _ (scaleAfterMul_ne_zero hP _ h2)⟩

theorem minmax_scale_ok (x : List ℚ) (hx : x.length = 30) :
    ∃ data, minmax_scale x = .ok data ∧ data.length = 30 := by
  have h1 : min_vals.length = 30 := rfl
  have h2 : max_vals.length = 30 := rfl
  unfold minmax_scale
  rw [if_neg (by rw [hx, h1, h2]; simp)]
  exact ⟨_, rfl, by simp [hx]⟩

theorem checkStatus_layers_holds {P : Params} (hP : P.Valid) {n : Nat}
    (hS : P.slot_count = 2 ^ n) (h128 : 128 ≤ P.slot_count) (hscale : P.scale ≠ 0)
    (htop : 13 ≤ P.top) (tempData : List ℚ) (hrow : tempData.length = 31)
    (b0 b1 b2 : List ℚ) (W0 W1 W2 : List (List ℚ))
    (hW0 : ∀ row ∈ W0, row.length ≤ P.slot_count) (hr0 : W0.length ≤ P.slot_count)
    (hb0 : b0.length ≤ P.slot_count)
    (hW1 : ∀ row ∈ W1, row.length ≤ P.slot_count) (hr1 : W1.length ≤ P.slot_count)
    (hb1 : b1.length ≤ P.slot_count)
    (hW2 : ∀ row ∈ W2, row.length ≤ P.slot_count) (hr2 : W2.length ≤ P.slot_count)
    (hb2 : b2.length ≤ P.slot_count) :
    ∃ data ct3, minmax_scale (tempData.take 30) = .ok data ∧ data.length = 30 ∧
      checkStatus_layers P tempData b0 b1 b2 W0 W1 W2 = .ok ct3 ∧
      Holds P ct3 (sigmoidEntry P W0.length W1.length W2.length).1
        (sigmoidEntry P W0.length W1.length W2.length).2
        (slotAffine P.slot_count W2 b2 (slotRelu 64 (slotAffine P.slot_count W1 b1
          (slotRelu 128 (slotAffine P.slot_count W0 b0 (fun j => data.getD j 0)))))) ∧
      P.top - 10 ≤ (sigmoidEntry P W0.length W1.length W2.length).1 ∧
      (sigmoidEntry P W0.length W1.length W2.length).1 ≤ P.top ∧
      (sigmoidEntry P W0.length W1.length W2.length).2 ≠ 0 := by
  obtain ⟨data, hdata, hlen⟩ := minmax_scale_ok (tempData.take 30) (by simp [hrow])
  obtain ⟨pt, hpt, hct⟩ := @encode_holds P data (by omega) P.top P.scale
  -- metadata along the pipeline
  have m1 := afterLayer_bounds hP hscale W0.length (le_refl P.top) hscale
  have m2 := afterRelu_bounds hP m1.1 m1.2.2
  have m3 := afterLayer_bounds hP hscale W1.length m2.1 m2.2.2
  have m4 := afterRelu_bounds hP m3.1 m3.2.2
  have m5 := afterLayer_bounds hP hscale W2.length m4.1 m4.2.2
  have e2 := m2.2.1
  have e4 := m4.2.1
  -- the calls
  obtain ⟨c1, hc1, hh1⟩ := process_layer_linear_holds_gen hS hct (by omega) (le_refl _)
    W0 b0 hW0 hr0 hb0
  obtain ⟨c1r, hc1r, hh1r⟩ := apply_poly_relu_inplace_holds_gen hh1
    (by omega : 128 ≤ P.slot_count) (by omega)
  obtain ⟨c2, hc2, hh2⟩ := process_layer_linear_holds_gen hS hh1r
    (by omega) m2.1 W1 b1 hW1 hr1 hb1
  obtain ⟨c2r, hc2r, hh2r⟩ := apply_poly_relu_inplace_holds_gen hh2
    (by omega : 64 ≤ P.slot_count) (by omega)
  obtain ⟨c3, hc3, hh3⟩ := process_layer_linear_holds_gen hS hh2r
    (by omega) m4.1 W2 b2 hW2 hr2 hb2
  refine ⟨data, c3, hdata, hlen, ?_, hh3, ?_, m5.1, m5.2.2⟩
  · simp [checkStatus_layers, hdata, hpt, hc1, hc1r, hc2, hc2r, hc3]
  · have := m5.2.1
    show P.top - 10 ≤ (afterLayer P W2.length _ _).1
    omega

theorem checkStatus_ciphertext_holds {P : Params} (hP : P.Valid) {n : Nat}
    (hS : P.slot_count = 2 ^ n) (h128 : 128 ≤ P.slot_count) (hscale : P.scale ≠ 0)
    (htop : 13 ≤ P.top) (tempData : List ℚ) (hrow : tempData.length = 31)
    (b0 b1 b2 : List ℚ) (W0 W1 W2 : List (List ℚ))
    (hW0 : ∀ row ∈ W0, row.length ≤ P.slot_count) (hr0 : W0.length ≤ P.slot_count)
    (hb0 : b0.length ≤ P.slot_count)
    (hW1 : ∀ row ∈ W1, row.length ≤ P.slot_count) (hr1 : W1.length ≤ P.slot_count)
    (hb1 : b1.length ≤ P.slot_count)
    (hW2 : ∀ row ∈ W2, row.length ≤ P.slot_count) (hr2 : W2.length ≤ P.slot_count)
    (hb2 : b2.length ≤ P.slot_count) :
    ∃ data out, minmax_scale (tempData.take 30) = .ok data ∧ data.length = 30 ∧
      checkStatus_ciphertext P tempData b0 b1 b2 W0 W1 W2 = .ok out ∧
      out.level + 3 = (sigmoidEntry P W0.length W1.length W2.length).1 ∧
      out.value 0 = 0.5
        + 0.197 * (sigmoidLinFactor P (sigmoidEntry P W0.length W1.length W2.length).1
            (sigmoidEntry P W0.length W1.length W2.length).2
          * slotAffine P.slot_count W2 b2 (slotRelu 64 (slotAffine P.slot_count W1 b1
              (slotRelu 128 (slotAffine P.slot_count W0 b0 (fun j => data.getD j 0))))) 0)
        - 0.004 * (sigmoidCubicFactor P (sigmoidEntry P W0.length W1.length W2.length).1
            (sigmoidEntry P W0.length W1.length W2.length).2
          * slotAffine P.slot_count W2 b2 (slotRelu 64 (slotAffine P.slot_count W1 b1
              (slotRelu 128 (slotAffine P.slot_count W0 b0 (fun j => data.getD j 0))))) 0
            ^ 3) := by
  obtain ⟨data, ct3, hdata, hlen, hct3, hh3, hlo, _, hne⟩ := checkStatus_layers_holds hP hS
    h128 hscale htop tempData hrow b0 b1 b2 W0 W1 W2 hW0 hr0 hb0 hW1 hr1 hb1 hW2 hr2 hb2
  obtain ⟨out, ho, hoh⟩ := apply_poly_sigmoid_inplace_holds hP hh3 hne
    (by omega : 1 ≤ P.slot_count) (by omega)
  have hs : sigmoidScale P (sigmoidEntry P W0.length W1.length W2.length).1
      (sigmoidEntry P W0.length W1.length W2.length).2 ≠ 0 :=
    scaleAfterMul_ne_zero hP _ (scaleAfterMul_ne_zero hP _ (scaleAfterMul_ne_zero hP _ hne))
  refine ⟨data, out, hdata, hlen, by simp [checkStatus_ciphertext, hct3, ho], ?_, ?_⟩
  · rw [hoh.2.1]
    omega
  · rw [hoh.value_eq hs (by omega : 0 < P.slot_count), if_pos (by norm_num)]

/-! ## Agreement of the slot contents with the plaintext reference -/

theorem sum_range_mul_getD (S : Nat) (w xs : List ℚ) (h : w.length ≤ S) :
    ∑ t ∈ Finset.range S, w.getD t 0 * xs.getD t 0 = plain_dot w xs := by
  unfold plain_dot
  rw [← sum_range_getD (List.zipWith (· * ·) w xs) S
    (by rw [List.length_zipWith]; exact le_trans (Nat.min_le_left _ _) h)]
  apply Finset.sum_congr rfl
  intro t _
  rw [getD_zipWith_mul]

theorem plain_linear_getD (W : List (List ℚ)) (b xs : List ℚ) (hb : b.length = W.length)
    (j : Nat) :
    (plain_linear W b xs).getD j 0
      = if j < W.length then plain_dot (W.getD j []) xs + b.getD j 0 else 0 := by
  unfold plain_linear
  by_cases hj : j < W.length
  · have hjb : j < b.length := by omega
    rw [if_pos hj, List.getD_eq_getElem _ _ (by simp [hj, hjb]), List.getElem_zipWith,
      List.getD_eq_getElem _ _ hj, List.getD_eq_getElem _ _ hjb]
  · rw [if_neg hj, List.getD_eq_default _ _ (by simp; omega)]

theorem slotAffine_eq (S : Nat) (W : List (List ℚ)) (b xs : List ℚ) (x : Nat → ℚ)
    (hb : b.length = W.length) (hW : ∀ row ∈ W, row.length ≤ S)
    (hx : ∀ t, x t = xs.getD t 0) (j : Nat) :
    slotAffine S W b x j = (plain_linear W b xs).getD j 0 := by
  rw [plain_linear_getD W b xs hb]
  unfold slotAffine
  by_cases hj : j < W.length
  · rw [if_pos hj, if_pos hj]
    congr 1
    have hmem : W.getD j [] ∈ W := by
      rw [List.getD_eq_getElem _ _ hj]
      exact List.getElem_mem _
    rw [← sum_range_mul_getD S _ xs (hW _ hmem)]
    apply Finset.sum_congr rfl
    intro t _
    rw [hx]
  · rw [if_neg hj, if_neg hj, List.getD_eq_default _ _ (by omega)]
    simp

theorem slotRelu_eq (size : Nat) (v : List ℚ) (f : Nat → ℚ) (hf : ∀ j, f j = v.getD j 0)
    (hv : v.length ≤ size) (j : Nat) :
    slotRelu size f j = (v.map reluPoly).getD j 0 := by
  have h0 : reluPoly 0 = 0 := by norm_num [reluPoly]
  have hmap : (v.map reluPoly).getD j 0 = reluPoly (v.getD j 0) := by
    conv_lhs => rw [← h0]
    exact List.getD_map _ _ reluPoly
  rw [hmap]
  unfold slotRelu
  by_cases hj : j < size
  · rw [if_pos hj, hf]
    rfl
  · rw [if_neg hj, List.getD_eq_default _ _ (by omega), h0]

theorem length_plain_linear (W : List (List ℚ)) (b xs : List ℚ) (hb : b.length = W.length) :
    (plain_linear W b xs).length = W.length := by
  simp [plain_linear, hb]

theorem slots_eq_plain_preactivation (S : Nat) (W0 : List (List ℚ)) (b0 : List ℚ)
    (W1 : List (List ℚ)) (b1 : List ℚ) (W2 : List (List ℚ)) (b2 : List ℚ) (data : List ℚ)
    (hW0 : ∀ row ∈ W0, row.length ≤ S) (hW1 : ∀ row ∈ W1, row.length ≤ S)
    (hW2 : ∀ row ∈ W2, row.length ≤ S)
    (hb0 : b0.length = W0.length) (hb1 : b1.length = W1.length) (hb2 : b2.length = W2.length)
    (hr0 : W0.length ≤ 128) (hr1 : W1.length ≤ 64) (j : Nat) :
    slotAffine S W2 b2 (slotRelu 64 (slotAffine S W1 b1
      (slotRelu 128 (slotAffine S W0 b0 (fun j => data.getD j 0))))) j
      = (plain_preactivation W0 b0 W1 b1 W2 b2 data).getD j 0 := by
  unfold plain_preactivation
  apply slotAffine_eq S W2 b2 _ _ hb2 hW2
  apply slotRelu_eq 64 _ _ _ (by rw [length_plain_linear _ _ _ hb1]; exact hr1)
  apply slotAffine_eq S W1 b1 _ _ hb1 hW1
  apply slotRelu_eq 128 _ _ _ (by rw [length_plain_linear _ _ _ hb0]; exact hr0)
  apply slotAffine_eq S W0 b0 _ _ hb0 hW0
  intro t
  rfl

theorem checkStatus_eq {P : Params} (hP : P.Valid) {n : Nat}
    (hS : P.slot_count = 2 ^ n) (h128 : 128 ≤ P.slot_count) (hscale : P.scale ≠ 0)
    (htop : 13 ≤ P.top) (tempData : List ℚ) (hrow : tempData.length = 31)
    (b0 b1 b2 : List ℚ) (W0 W1 W2 : List (List ℚ))
    (hW0 : ∀ row ∈ W0, row.length ≤ P.slot_count) (hW1 : ∀ row ∈ W1, row.length ≤ P.slot_count)
    (hW2 : ∀ row ∈ W2, row.length ≤ P.slot_count)
    (hb0 : b0.length = W0.length) (hb1 : b1.length = W1.length) (hb2 : b2.length = W2.length)
    (hr0 : W0.length ≤ 128) (hr1 : W1.length ≤ 64) (hr2 : W2.length ≤ P.slot_count) :
    ∃ data, minmax_scale (tempData.take 30) = .ok data ∧
      checkStatus P tempData b0 b1 b2 W0 W1 W2
        = .ok (decide (truncToInt (tempData.getD 30 0)
            = scaled_diagnosis P W0 b0 W1 b1 W2 b2 data)) := by
  obtain ⟨data, out, hdata, _, hout, _, hval⟩ := checkStatus_ciphertext_holds hP hS h128
    hscale htop tempData hrow b0 b1 b2 W0 W1 W2 hW0 (by omega) (by omega) hW1 (by omega)
    (by omega) hW2 hr2 (by omega)
  refine ⟨data, hdata, ?_⟩
  have hres : (Encoder.decode (Decryptor.decrypt out)).getD 0 0 = out.value 0 := by
    simp only [Encoder.decode, Decryptor.decrypt, Ciphertext.value]
    exact getD_map_div _ _ _
  rw [slots_eq_plain_preactivation P.slot_count W0 b0 W1 b1 W2 b2 data hW0 hW1 hW2 hb0 hb1
    hb2 hr0 hr1 0] at hval
  simp only [checkStatus, hout, hres, hval, scaled_diagnosis]

theorem plain_dot_replicate_zero (n : Nat) (x : List ℚ) :
    plain_dot (List.replicate n 0) x = 0 := by
  unfold plain_dot
  induction n generalizing x with
  | zero => simp
  | succ n ih =>
    cases x with
    | nil => simp
    | cons a w =>
      simp only [List.replicate_succ, List.zipWith_cons_cons, List.sum_cons, zero_mul, zero_add]
      exact ih w

theorem plain_preactivation_const (c : ℚ) (data : List ℚ) :
    plain_preactivation [List.replicate 30 0] [0] [[0]] [0] [[0]] [c] data = [c] := by
  have h1 : ∀ v : List ℚ, plain_dot [0] v = 0 := fun v => plain_dot_replicate_zero 1 v
  simp [plain_preactivation, plain_linear, h1]

theorem getD_plain_network (W0 : List (List ℚ)) (b0 : List ℚ) (W1 : List (List ℚ))
    (b1 : List ℚ) (W2 : List (List ℚ)) (b2 : List ℚ) (x : List ℚ)
    (h : 0 < (plain_preactivation W0 b0 W1 b1 W2 b2 x).length) :
    (plain_network W0 b0 W1 b1 W2 b2 x).getD 0 0
      = sigmoidPoly ((plain_preactivation W0 b0 W1 b1 W2 b2 x).getD 0 0) := by
  unfold plain_network
  rw [List.getD_eq_getElem _ _ (by simpa using h), List.getD_eq_getElem _ _ h,
    List.getElem_map]

theorem scaled_diagnosis_eq_plain (P : Params) (W0 : List (List ℚ)) (b0 : List ℚ)
    (W1 : List (List ℚ)) (b1 : List ℚ) (W2 : List (List ℚ)) (b2 : List ℚ) (x : List ℚ)
    (ha : sigmoidLinFactor P (sigmoidEntry P W0.length W1.length W2.length).1
      (sigmoidEntry P W0.length W1.length W2.length).2 = 1)
    (hb : sigmoidCubicFactor P (sigmoidEntry P W0.length W1.length W2.length).1
      (sigmoidEntry P W0.length W1.length W2.length).2 = 1) :
    scaled_diagnosis P W0 b0 W1 b1 W2 b2 x = plain_diagnosis W0 b0 W1 b1 W2 b2 x := by
  unfold scaled_diagnosis plain_diagnosis
  simp only [ha, hb, one_mul]
  by_cases h : 0 < (plain_preactivation W0 b0 W1 b1 W2 b2 x).length
  · rw [getD_plain_network W0 b0 W1 b1 W2 b2 x h]
    rfl
  · have hnil : plain_preactivation W0 b0 W1 b1 W2 b2 x = [] :=
      List.length_eq_zero.mp (by omega)
    simp [plain_network, hnil]
    norm_num

/-! ## Level bookkeeping, valid for every outcome -/

theorem add_plain_level {ct : Ciphertext} {pt : Plaintext} {c : Ciphertext}
    (h : Evaluator.add_plain ct pt = .ok c) : c.level = ct.level := by
  unfold Evaluator.add_plain at h
  split_ifs at h
  cases h
  rfl

theorem multiply_plain_level {ct : Ciphertext} {pt : Plaintext} {c : Ciphertext}
    (h : Evaluator.multiply_plain ct pt = .ok c) : c.level = ct.level := by
  unfold Evaluator.multiply_plain at h
  split_ifs at h
  cases h
  rfl

theorem add_level {a b c : Ciphertext} (h : Evaluator.add a b = .ok c) :
    c.level = a.level := by
  unfold Evaluator.add at h
  split_ifs at h
  cases h
  rfl

theorem multiply_level {a b c : Ciphertext} (h : Evaluator.multiply a b = .ok c) :
    c.level = a.level := by
  unfold Evaluator.multiply at h
  split_ifs at h
  cases h
  rfl

theorem rescale_level {P : Params} {ct c : Ciphertext}
    (h : Evaluator.rescale_to_next P ct = .ok c) : c.level + 1 = ct.level := by
  unfold Evaluator.rescale_to_next at h
  split_ifs at h with h0
  cases h
  show ct.level - 1 + 1 = ct.level
  omega

theorem add_plain_inplace_level (P : Params) (ct : Ciphertext) (vec : List ℚ) :
    (add_plain_inplace P ct vec).ct.level = ct.level := by
  unfold add_plain_inplace
  cases Encoder.encode P vec ct.level ct.scale with
  | error e => rfl
  | ok pt =>
    dsimp only
    cases h : Evaluator.add_plain ct pt with
    | error e => rfl
    | ok c => exact add_plain_level h

theorem multiply_plain_inplace_level (P : Params) (ct : Ciphertext) (vec : List ℚ) :
    (multiply_plain_inplace P ct vec).ct.level ≤ ct.level ∧
    ((multiply_plain_inplace P ct vec).thrown = none →
      (multiply_plain_inplace P ct vec).ct.level + 1 = ct.level) := by
  unfold multiply_plain_inplace
  cases Encoder.encode P vec ct.level ct.scale with
  | error e => simp
  | ok pt =>
    dsimp only
    cases h : Evaluator.multiply_plain ct pt with
    | error e => simp
    | ok c =>
      have hc := multiply_plain_level h
      dsimp only
      cases h2 : Evaluator.rescale_to_next P c with
      | error e => simp [hc]
      | ok c2 =>
        have hc2 := rescale_level h2
        dsimp only
        simp only [true_implies]
        omega

theorem multiply_plain_inplace_thrown (P : Params) (ct : Ciphertext) (vec : List ℚ) :
    (multiply_plain_inplace P ct vec).thrown ≠ some .invalidIndex := by
  unfold multiply_plain_inplace
  cases h0 : Encoder.encode P vec ct.level ct.scale with
  | error e =>
    unfold Encoder.encode at h0
    split_ifs at h0
    cases h0
    simp
  | ok pt =>
    dsimp only
    cases h : Evaluator.multiply_plain ct pt with
    | error e =>
      unfold Evaluator.multiply_plain at h
      split_ifs at h
      cases h
      simp
    | ok c =>
      dsimp only
      cases h2 : Evaluator.rescale_to_next P c with
      | error e =>
        unfold Evaluator.rescale_to_next at h2
        split_ifs at h2
        cases h2
        simp
      | ok c2 => simp

theorem sum_all_slots_loop_level (P : Params) :
    ∀ (fuel i : Nat) (ct : Ciphertext), (sum_all_slots_loop P fuel i ct).ct.level = ct.level := by
  intro fuel
  induction fuel with
  | zero => intro i ct; rfl
  | succ fuel ih =>
    intro i ct
    unfold sum_all_slots_loop
    split_ifs with hi
    · cases h : Evaluator.rotate_vector P ct i with
      | error e => rfl
      | ok r =>
        dsimp only
        cases h2 : Evaluator.add ct r with
        | error e => rfl
        | ok c =>
          show (sum_all_slots_loop P fuel (i * 2) c).ct.level = ct.level
          rw [ih, add_level h2]
    · rfl

theorem sum_all_slots_loop_thrown (P : Params) :
    ∀ (fuel i : Nat) (ct : Ciphertext), 1 ≤ i → 1 ≤ fuel →
      (i ≤ P.slot_count / 2 → P.slot_count / 2 + 2 ≤ fuel + i) →
      (sum_all_slots_loop P fuel i ct).thrown = none := by
  intro fuel
  induction fuel with
  | zero => intro i ct _ hf; omega
  | succ fuel ih =>
    intro i ct hi _ h
    unfold sum_all_slots_loop
    split_ifs with hle
    · have hlt : ¬ P.slot_count ≤ i := by omega
      simp only [Evaluator.rotate_vector, if_neg hlt, Evaluator.add, ne_eq, not_true_eq_false,
        if_false]
      exact ih (i * 2) _ (by omega) (by have := h hle; omega) (by intro h2; have := h hle; omega)
    · rfl

theorem sum_all_slots_inplace_thrown (P : Params) (ct : Ciphertext) :
    (sum_all_slots_inplace P ct).thrown = none :=
  sum_all_slots_loop_thrown P (P.slot_count + 1) 1 ct (le_refl 1) (by omega)
    (by intro _; omega)

theorem multiply_plain_inplace_thrown_none (P : Params) (ct : Ciphertext) (vec : List ℚ)
    (hv : vec.length ≤ P.slot_count) (hl : ct.level ≠ 0) :
    (multiply_plain_inplace P ct vec).thrown = none := by
  simp [multiply_plain_inplace, encode_eq hv, Evaluator.multiply_plain,
    Evaluator.rescale_to_next, hl]

theorem add_plain_inplace_thrown_none (P : Params) (ct : Ciphertext) (vec : List ℚ)
    (hv : vec.length ≤ P.slot_count) :
    (add_plain_inplace P ct vec).thrown = none := by
  simp [add_plain_inplace, encode_eq hv, Evaluator.add_plain]

theorem apply_poly_relu_inplace_thrown_none (P : Params) (ct : Ciphertext) (size : Nat)
    (hsz : size ≤ P.slot_count) (hl : 2 ≤ ct.level) :
    (apply_poly_relu_inplace P ct size).thrown = none := by
  have h0 : ct.level ≠ 0 := by omega
  have h1 : ct.level - 1 ≠ 0 := by omega
  have hv : ∀ a : ℚ, (List.replicate size a).length ≤ P.slot_count := by
    intro a
    simpa using hsz
  simp [apply_poly_relu_inplace, multiply_plain_inplace, add_plain_inplace, encode_eq (hv _),
    Evaluator.multiply_plain, Evaluator.rescale_to_next, Evaluator.add_plain,
    Evaluator.multiply, Evaluator.relinearize, h0, h1]

theorem mask_slot_inplace_level (P : Params) (ct : Ciphertext) (index : Nat) :
    (mask_slot_inplace P ct index).ct.level ≤ ct.level ∧
    ((mask_slot_inplace P ct index).thrown = none →
      (mask_slot_inplace P ct index).ct.level + 1 = ct.level) := by
  unfold mask_slot_inplace
  split_ifs with h
  · simp
  · exact multiply_plain_inplace_level P ct _

theorem apply_poly_relu_inplace_level (P : Params) (ct : Ciphertext) (size : Nat) :
    (apply_poly_relu_inplace P ct size).ct.level ≤ ct.level ∧
    ((apply_poly_relu_inplace P ct size).thrown = none →
      (apply_poly_relu_inplace P ct size).ct.level + 2 = ct.level) := by
  have h1 := (multiply_plain_inplace_level P ct (List.replicate size 0.5)).2
  unfold apply_poly_relu_inplace
  rcases hm : multiply_plain_inplace P ct (List.replicate size 0.5) with ⟨lin, _ | e⟩
  · rw [hm] at h1
    have hlin : lin.level + 1 = ct.level := h1 rfl
    have h2 := add_plain_inplace_level P lin (List.replicate size 1.0)
    dsimp only
    rcases ha : add_plain_inplace P lin (List.replicate size 1.0) with ⟨lp1, _ | e⟩
    · rw [ha] at h2
      dsimp only at h2 ⊢
      cases hp : Evaluator.multiply lin lp1 with
      | error e => simp
      | ok prod =>
        have hprod := multiply_level hp
        dsimp only
        cases hr : Evaluator.rescale_to_next P (Evaluator.relinearize prod) with
        | error e => simp
        | ok res =>
          have hres := rescale_level hr
          simp only [Evaluator.relinearize] at hres
          dsimp only
          simp only [true_implies]
          omega
    · simp
  · simp

theorem mod_switch_level {ct c : Ciphertext} {t : Nat}
    (h : Evaluator.mod_switch_to ct t = .ok c) : c.level = t := by
  unfold Evaluator.mod_switch_to at h
  split_ifs at h
  cases h
  rfl

theorem apply_poly_sigmoid_inplace_level (P : Params) (ct : Ciphertext) (size : Nat)
    (out : Ciphertext) (h : apply_poly_sigmoid_inplace P ct size = ⟨out, none⟩) :
    out.level + 3 = ct.level := by
  unfold apply_poly_sigmoid_inplace at h
  cases hsq : Evaluator.multiply ct ct with
  | error e => simp [hsq] at h
  | ok sq =>
  have l1 := multiply_level hsq
  simp only [hsq] at h
  cases hx2 : Evaluator.rescale_to_next P (Evaluator.relinearize sq) with
  | error e => simp [hx2] at h
  | ok x2 =>
  have l2 := rescale_level hx2
  simp only [Evaluator.relinearize] at l2
  simp only [hx2] at h
  cases hsw1 : Evaluator.mod_switch_to ct x2.level with
  | error e => simp [hsw1] at h
  | ok sw1 =>
  simp only [hsw1] at h
  cases hcube : Evaluator.multiply x2 { sw1 with scale := x2.scale } with
  | error e => simp [hcube] at h
  | ok cube =>
  have l3 := multiply_level hcube
  simp only [hcube] at h
  cases hx3 : Evaluator.rescale_to_next P (Evaluator.relinearize cube) with
  | error e => simp [hx3] at h
  | ok x3 =>
  have l4 := rescale_level hx3
  simp only [Evaluator.relinearize] at l4
  simp only [hx3] at h
  cases hsw2 : Evaluator.mod_switch_to { sw1 with scale := x2.scale } x3.level with
  | error e => simp [hsw2] at h
  | ok sw2 =>
  have l5 := mod_switch_level hsw2
  simp only [hsw2] at h
  cases hx2b : Evaluator.mod_switch_to x2 x3.level with
  | error e => simp [hx2b] at h
  | ok x2b =>
  simp only [hx2b] at h
  have l6 := (multiply_plain_inplace_level P x3 (List.replicate size (-0.004))).2
  rcases hres : multiply_plain_inplace P x3 (List.replicate size (-0.004)) with ⟨res, _ | e⟩
  swap
  · simp [hres] at h
  rw [hres] at l6
  simp only [hres] at h
  have l7 := (multiply_plain_inplace_level P { sw2 with scale := x3.scale }
    (List.replicate size 0.197)).2
  rcases hlin : multiply_plain_inplace P { sw2 with scale := x3.scale }
    (List.replicate size 0.197) with ⟨lin, _ | e⟩
  swap
  · simp [hlin] at h
  rw [hlin] at l7
  simp only [hlin] at h
  cases hres1 : Evaluator.mod_switch_to res lin.level with
  | error e => simp [hres1] at h
  | ok res1 =>
  have l8 := mod_switch_level hres1
  simp only [hres1] at h
  cases hres2 : Evaluator.add res1 lin with
  | error e => simp [hres2] at h
  | ok res2 =>
  have l9 := add_level hres2
  simp only [hres2] at h
  have l10 := add_plain_inplace_level P res2 (List.replicate size 0.5)
  rcases hres3 : add_plain_inplace P res2 (List.replicate size 0.5) with ⟨res3, _ | e⟩
  swap
  · simp [hres3] at h
  rw [hres3] at l10
  simp only [hres3, Outcome.mk.injEq, and_true] at h
  subst h
  have l7b : lin.level + 1 = sw2.level := l7 rfl
  simp only at l10
  omega

/-! ## Level and scale of the operands of every combination -/

theorem add_consistent_iff (a b : Ciphertext) :
    Combo.consistent (.add a b) ↔ ∃ c, Evaluator.add a b = .ok c := by
  unfold Combo.consistent Evaluator.add
  by_cases h1 : a.level = b.level
  · by_cases h2 : a.scale = b.scale
    · simp [h1, h2]
    · simp [h1, h2]
  · simp [h1]

theorem multiply_consistent_iff (a b : Ciphertext) :
    Combo.consistent (.multiply a b) ↔ ∃ c, Evaluator.multiply a b = .ok c := by
  unfold Combo.consistent Evaluator.multiply
  by_cases h1 : a.level = b.level
  · simp [h1]
  · simp [h1]

theorem add_scale {a b c : Ciphertext} (h : Evaluator.add a b = .ok c) :
    c.scale = a.scale := by
  unfold Evaluator.add at h
  split_ifs at h
  cases h
  rfl

theorem mod_switch_scale {ct c : Ciphertext} {t : Nat}
    (h : Evaluator.mod_switch_to ct t = .ok c) : c.scale = ct.scale := by
  unfold Evaluator.mod_switch_to at h
  split_ifs at h
  cases h
  rfl

theorem multiply_plain_inplace_scale (P : Params) (ct : Ciphertext) (vec : List ℚ)
    (out : Ciphertext) (h : multiply_plain_inplace P ct vec = ⟨out, none⟩) :
    out.scale = scaleAfterMul P ct.level ct.scale := by
  unfold multiply_plain_inplace at h
  cases h0 : Encoder.encode P vec ct.level ct.scale with
  | error e => simp [h0] at h
  | ok pt =>
    have hpt : pt.scale = ct.scale := by
      unfold Encoder.encode at h0
      split_ifs at h0
      cases h0
      rfl
    simp only [h0] at h
    cases h1 : Evaluator.multiply_plain ct pt with
    | error e => simp [h1] at h
    | ok c1 =>
      have hc1 : c1.level = ct.level ∧ c1.scale = ct.scale * pt.scale := by
        unfold Evaluator.multiply_plain at h1
        split_ifs at h1
        cases h1
        exact ⟨rfl, rfl⟩
      simp only [h1] at h
      cases h2 : Evaluator.rescale_to_next P c1 with
      | error e => simp [h2] at h
      | ok c2 =>
        simp only [h2, Outcome.mk.injEq, and_true] at h
        subst h
        unfold Evaluator.rescale_to_next at h2
        split_ifs at h2
        cases h2
        show c1.scale / P.modulus c1.level = _
        rw [hc1.1, hc1.2, hpt]
        rfl

theorem sum_all_slots_loop_scale (P : Params) :
    ∀ (fuel i : Nat) (ct : Ciphertext), (sum_all_slots_loop P fuel i ct).ct.scale = ct.scale := by
  intro fuel
  induction fuel with
  | zero => intro i ct; rfl
  | succ fuel ih =>
    intro i ct
    unfold sum_all_slots_loop
    split_ifs with hi
    · cases h : Evaluator.rotate_vector P ct i with
      | error e => rfl
      | ok r =>
        dsimp only
        cases h2 : Evaluator.add ct r with
        | error e => rfl
        | ok c =>
          show (sum_all_slots_loop P fuel (i * 2) c).ct.scale = ct.scale
          rw [ih, add_scale h2]
    · rfl

theorem sum_all_slots_loop_combos_consistent (P : Params) :
    ∀ (fuel i : Nat) (ct : Ciphertext), ∀ c ∈ sum_all_slots_loop_combos P fuel i ct,
      c.consistent := by
  intro fuel
  induction fuel with
  | zero => intro i ct c hc; simp [sum_all_slots_loop_combos] at hc
  | succ fuel ih =>
    intro i ct c hc
    unfold sum_all_slots_loop_combos at hc
    split_ifs at hc with hi
    · cases h : Evaluator.rotate_vector P ct i with
      | error e => simp [h] at hc
      | ok r =>
        have hr : r.level = ct.level ∧ r.scale = ct.scale := by
          unfold Evaluator.rotate_vector at h
          split_ifs at h
          cases h
          exact ⟨rfl, rfl⟩
        simp only [h, List.mem_cons] at hc
        rcases hc with rfl | hc
        · exact ⟨hr.1.symm, hr.2.symm⟩
        · cases h2 : Evaluator.add ct r with
          | error e => simp [h2] at hc
          | ok c1 =>
            simp only [h2] at hc
            exact ih _ _ c hc
    · simp at hc

theorem apply_poly_relu_inplace_combos_consistent (P : Params) (ct : Ciphertext)
    (size : Nat) : ∀ c ∈ apply_poly_relu_inplace_combos P ct size, c.consistent := by
  intro c hc
  unfold apply_poly_relu_inplace_combos at hc
  rcases hm : multiply_plain_inplace P ct (List.replicate size 0.5) with ⟨lin, _ | e⟩
  · simp only [hm] at hc
    have h2 := add_plain_inplace_level P lin (List.replicate size 1.0)
    rcases ha : add_plain_inplace P lin (List.replicate size 1.0) with ⟨lp1, _ | e⟩
    · rw [ha] at h2
      simp only [ha, List.mem_singleton] at hc
      subst hc
      exact h2.symm
    · simp [ha] at hc
  · simp [hm] at hc

theorem apply_poly_sigmoid_inplace_combos_consistent (P : Params) (ct : Ciphertext)
    (size : Nat) : ∀ c ∈ apply_poly_sigmoid_inplace_combos P ct size, c.consistent := by
  intro c hc
  unfold apply_poly_sigmoid_inplace_combos at hc
  rw [List.mem_cons] at hc
  rcases hc with rfl | hc
  · exact rfl
  cases hsq : Evaluator.multiply ct ct with
  | error e => simp [hsq] at hc
  | ok sq =>
  simp only [hsq] at hc
  cases hx2 : Evaluator.rescale_to_next P (Evaluator.relinearize sq) with
  | error e => simp [hx2] at hc
  | ok x2 =>
  simp only [hx2] at hc
  cases hsw1 : Evaluator.mod_switch_to ct x2.level with
  | error e => simp [hsw1] at hc
  | ok sw1 =>
  have l1 := mod_switch_level hsw1
  simp only [hsw1, List.mem_cons] at hc
  rcases hc with rfl | hc
  · exact l1.symm
  cases hcube : Evaluator.multiply x2 { sw1 with scale := x2.scale } with
  | error e => simp [hcube] at hc
  | ok cube =>
  simp only [hcube] at hc
  cases hx3 : Evaluator.rescale_to_next P (Evaluator.relinearize cube) with
  | error e => simp [hx3] at hc
  | ok x3 =>
  simp only [hx3] at hc
  cases hsw2 : Evaluator.mod_switch_to { sw1 with scale := x2.scale } x3.level with
  | error e => simp [hsw2] at hc
  | ok sw2 =>
  have l2 := mod_switch_level hsw2
  simp only [hsw2] at hc
  cases hx2b : Evaluator.mod_switch_to x2 x3.level with
  | error e => simp [hx2b] at hc
  | ok x2b =>
  simp only [hx2b] at hc
  rcases hres : multiply_plain_inplace P x3 (List.replicate size (-0.004)) with ⟨res, _ | e⟩
  swap
  · simp [hres] at hc
  have s1 := multiply_plain_inplace_scale P x3 _ res hres
  simp only [hres] at hc
  rcases hlin : multiply_plain_inplace P { sw2 with scale := x3.scale }
    (List.replicate size 0.197) with ⟨lin, _ | e⟩
  swap
  · simp [hlin] at hc
  have s2 := multiply_plain_inplace_scale P _ _ lin hlin
  simp only [hlin] at hc
  cases hres1 : Evaluator.mod_switch_to res lin.level with
  | error e => simp [hres1] at hc
  | ok res1 =>
  simp only [hres1, List.mem_singleton] at hc
  subst hc
  refine ⟨mod_switch_level hres1, ?_⟩
  rw [mod_switch_scale hres1, s1, s2]
  show scaleAfterMul P x3.level x3.scale = scaleAfterMul P sw2.level x3.scale
  rw [l2]

theorem mask_slot_inplace_scale (P : Params) (ct : Ciphertext) (index : Nat)
    (out : Ciphertext) (h : mask_slot_inplace P ct index = ⟨out, none⟩) :
    out.scale = scaleAfterMul P ct.level ct.scale := by
  unfold mask_slot_inplace at h
  split_ifs at h with hi
  · simp at h
  · exact multiply_plain_inplace_scale P ct _ out h

theorem process_layer_loop_combos_consistent (P : Params) (ct_in : Ciphertext) :
    ∀ (rest : List (List ℚ)) (i : Nat) (ct_final : Ciphertext),
      (ct_in.level ≤ ct_final.level ∨
        (ct_final.level + 2 = ct_in.level ∧
          ct_final.scale = scaleAfterMul P (ct_in.level - 1)
            (scaleAfterMul P ct_in.level ct_in.scale))) →
      ∀ r ∈ process_layer_loop_combos P ct_in rest i ct_final,
        (∀ c ∈ r.reduction, c.consistent) ∧
        ∀ acc cur, r.accumulation = some (acc, cur) →
          acc.level = cur.level ∧ acc.scale = cur.scale := by
  intro rest
  induction rest with
  | nil => intro i ct_final _ r hr; simp [process_layer_loop_combos] at hr
  | cons row rest ih =>
    intro i ct_final hinv r hr
    have hsum : ∀ ct1 : Ciphertext, ∀ c ∈ sum_all_slots_inplace_combos P ct1, c.consistent :=
      fun ct1 => sum_all_slots_loop_combos_consistent P (P.slot_count + 1) 1 ct1
    unfold process_layer_loop_combos at hr
    rcases h1 : multiply_plain_inplace P ct_in row with ⟨c1, _ | e⟩
    swap
    · simp only [h1, List.mem_singleton] at hr
      subst hr
      simp
    have hl1 := (multiply_plain_inplace_level P ct_in row).2
    rw [h1] at hl1
    have hc1l : c1.level + 1 = ct_in.level := hl1 rfl
    have hc1s := multiply_plain_inplace_scale P ct_in row c1 h1
    simp only [h1] at hr
    have hl2 := sum_all_slots_loop_level P (P.slot_count + 1) 1 c1
    have hs2 := sum_all_slots_loop_scale P (P.slot_count + 1) 1 c1
    rcases h2 : sum_all_slots_inplace P c1 with ⟨c2, _ | e⟩
    swap
    · simp only [h2, List.mem_singleton] at hr
      subst hr
      exact ⟨hsum c1, by simp⟩
    have hc2l : c2.level = c1.level := by
      unfold sum_all_slots_inplace at h2
      rw [h2] at hl2
      exact hl2
    have hc2s : c2.scale = c1.scale := by
      unfold sum_all_slots_inplace at h2
      rw [h2] at hs2
      exact hs2
    simp only [h2] at hr
    rcases h3 : mask_slot_inplace P c2 i with ⟨c, _ | e⟩
    swap
    · simp only [h3, List.mem_singleton] at hr
      subst hr
      exact ⟨hsum c1, by simp⟩
    have hl3 := (mask_slot_inplace_level P c2 i).2
    rw [h3] at hl3
    have hcl : c.level + 1 = c2.level := hl3 rfl
    have hcs := mask_slot_inplace_scale P c2 i c h3
    have hcs2 : c.scale = scaleAfterMul P (ct_in.level - 1)
        (scaleAfterMul P ct_in.level ct_in.scale) := by
      rw [hcs, hc2s, hc1s, hc2l]
      congr 1
      omega
    simp only [h3] at hr
    -- the accumulator after alignment
    have halign : ∀ f1 : Ciphertext,
        (if ct_final.level ≠ c.level then
          match Evaluator.mod_switch_to ct_final c.level with
          | .error e => (.error e : Except Err Ciphertext)
          | .ok sw => .ok { sw with scale := c.scale }
        else .ok ct_final) = .ok f1 → f1.level = c.level ∧ f1.scale = c.scale := by
      intro f1 hf1
      split_ifs at hf1 with hne
      · cases hsw : Evaluator.mod_switch_to ct_final c.level with
        | error e => simp [hsw] at hf1
        | ok sw =>
          have hswl : sw.level = c.level := mod_switch_level hsw
          simp only [hsw, Except.ok.injEq] at hf1
          subst hf1
          exact ⟨hswl, rfl⟩
      · simp only [Except.ok.injEq] at hf1
        subst hf1
        have heq : ct_final.level = c.level := not_not.mp hne
        rcases hinv with hge | ⟨_, hsc⟩
        · omega
        · exact ⟨heq, by rw [hsc, hcs2]⟩
    cases hal : (if ct_final.level ≠ c.level then
          match Evaluator.mod_switch_to ct_final c.level with
          | .error e => (.error e : Except Err Ciphertext)
          | .ok sw => .ok { sw with scale := c.scale }
        else .ok ct_final) with
    | error e =>
      simp only [hal, List.mem_singleton] at hr
      subst hr
      exact ⟨hsum c1, by simp⟩
    | ok f1 =>
      have hf1 := halign f1 hal
      simp only [hal, List.mem_cons] at hr
      rcases hr with rfl | hr
      · refine ⟨hsum c1, ?_⟩
        intro acc cur hacc
        simp only [Option.some.injEq, Prod.mk.injEq] at hacc
        obtain ⟨rfl, rfl⟩ := hacc
        exact hf1
      · cases hadd : Evaluator.add f1 c with
        | error e => simp [hadd] at hr
        | ok f2 =>
          simp only [hadd] at hr
          refine ih (i + 1) f2 (Or.inr ⟨?_, ?_⟩) r hr
          · rw [add_level hadd, hf1.1]
            omega
          · rw [add_scale hadd, hf1.2, hcs2]

theorem process_layer_linear_combos_consistent (P : Params) (ct_in : Ciphertext)
    (hltop : ct_in.level ≤ P.top) (weights : List (List ℚ)) :
    ∀ r ∈ process_layer_linear_combos P ct_in weights,
      (∀ c ∈ r.reduction, c.consistent) ∧
      ∀ acc cur, r.accumulation = some (acc, cur) →
        acc.level = cur.level ∧ acc.scale = cur.scale := by
  intro r hr
  unfold process_layer_linear_combos at hr
  rw [encode_eq (le_of_eq (List.length_replicate _ _))] at hr
  exact process_layer_loop_combos_consistent P ct_in weights 0 _ (Or.inl hltop) r hr

theorem Outcome.eq_of_thrown_none (o : Outcome) (h : o.thrown = none) :
    o = ⟨o.ct, none⟩ := by
  cases o
  simp only at h
  subst h
  rfl

theorem sum_all_slots_loop_combos_length {P : Params} {n : Nat} (hS : P.slot_count = 2 ^ n) :
    ∀ (d k fuel : Nat) (ct : Ciphertext), k + d = n → d + 1 ≤ fuel →
      (sum_all_slots_loop_combos P fuel (2 ^ k) ct).length = d := by
  intro d
  induction d with
  | zero =>
    intro k fuel ct hk hfuel
    obtain ⟨fuel, rfl⟩ : ∃ m, fuel = m + 1 := ⟨fuel - 1, by omega⟩
    have hkn : k = n := by omega
    subst hkn
    have hpos : 0 < 2 ^ k := Nat.pos_pow_of_pos k (by norm_num)
    have hnot : ¬ 2 ^ k ≤ P.slot_count / 2 := by
      rw [hS]; omega
    simp [sum_all_slots_loop_combos, hnot]
  | succ d ih =>
    intro k fuel ct hk hfuel
    obtain ⟨fuel, rfl⟩ : ∃ m, fuel = m + 1 := ⟨fuel - 1, by omega⟩
    have hn : n = (k + d) + 1 := by omega
    have hS2 : P.slot_count = 2 ^ k * 2 ^ d * 2 := by rw [hS, hn, pow_succ, pow_add]
    have hpos : 0 < 2 ^ k := Nat.pos_pow_of_pos k (by norm_num)
    have hposd : 0 < 2 ^ d := Nat.pos_pow_of_pos d (by norm_num)
    have hle : 2 ^ k ≤ P.slot_count / 2 := by
      rw [hS2, Nat.mul_div_cancel _ (by norm_num : 0 < 2)]
      exact Nat.le_mul_of_pos_right _ hposd
    have hlt : ¬ P.slot_count ≤ 2 ^ k := by
      have := Nat.div_le_self P.slot_count 2
      have : 0 < P.slot_count / 2 := lt_of_lt_of_le hpos hle
      omega
    have hrec := ih (k + 1) fuel
      { ct with raw := List.zipWith (· + ·) ct.raw (ct.raw.rotate (2 ^ k)) }
      (by omega) (by omega)
    rw [pow_succ] at hrec
    simp [sum_all_slots_loop_combos, hle, Evaluator.rotate_vector, hlt, Evaluator.add, hrec]

theorem sum_all_slots_inplace_combos_length {P : Params} {n : Nat}
    (hS : P.slot_count = 2 ^ n) (ct : Ciphertext) :
    (sum_all_slots_inplace_combos P ct).length = n := by
  have hfuel : n + 1 ≤ P.slot_count + 1 := by
    rw [hS]
    exact Nat.succ_le_succ (Nat.lt_two_pow n).le
  have := sum_all_slots_loop_combos_length hS n 0 (P.slot_count + 1) ct (by omega) hfuel
  simpa [sum_all_slots_inplace_combos] using this

theorem apply_poly_relu_inplace_combos_length (P : Params) (ct : Ciphertext) (size : Nat)
    (hsz : size ≤ P.slot_count) (hl : 1 ≤ ct.level) :
    (apply_poly_relu_inplace_combos P ct size).length = 1 := by
  have h0 : ct.level ≠ 0 := by omega
  have hv : ∀ a : ℚ, (List.replicate size a).length ≤ P.slot_count := by
    intro a
    simpa using hsz
  simp [apply_poly_relu_inplace_combos, multiply_plain_inplace, add_plain_inplace,
    encode_eq (hv _), Evaluator.multiply_plain, Evaluator.rescale_to_next,
    Evaluator.add_plain, h0]

theorem apply_poly_sigmoid_inplace_combos_length (P : Params) (ct : Ciphertext) (size : Nat)
    (hsz : size ≤ P.slot_count) (hl : 3 ≤ ct.level) :
    (apply_poly_sigmoid_inplace_combos P ct size).length = 3 := by
  have h0 : ct.level ≠ 0 := by omega
  have h1 : ct.level - 1 ≠ 0 := by omega
  have h2 : ct.level - 1 - 1 ≠ 0 := by omega
  have g1 : ¬ ct.level < ct.level - 1 := by omega
  have g2 : ¬ ct.level - 1 < ct.level - 1 - 1 := by omega
  have hv : ∀ a : ℚ, (List.replicate size a).length ≤ P.slot_count := by
    intro a
    simpa using hsz
  simp [apply_poly_sigmoid_inplace_combos, Evaluator.multiply, Evaluator.relinearize,
    Evaluator.rescale_to_next, Evaluator.mod_switch_to, multiply_plain_inplace,
    encode_eq (hv _), Evaluator.multiply_plain, h0, h1, h2, g1, g2]

theorem process_layer_loop_combos_shape {P : Params} {n : Nat} (hS : P.slot_count = 2 ^ n)
    (ct_in : Ciphertext) (hl : 2 ≤ ct_in.level) :
    ∀ (rest : List (List ℚ)) (i : Nat) (ct_final : Ciphertext),
      (ct_in.level ≤ ct_final.level ∨
        (ct_final.level + 2 = ct_in.level ∧
          ct_final.scale = scaleAfterMul P (ct_in.level - 1)
            (scaleAfterMul P ct_in.level ct_in.scale))) →
      (∀ row ∈ rest, row.length ≤ P.slot_count) → i + rest.length ≤ P.slot_count →
      (process_layer_loop_combos P ct_in rest i ct_final).map RowCombos.index
          = List.range' i rest.length ∧
        ∀ r ∈ process_layer_loop_combos P ct_in rest i ct_final,
          r.reduction.length = n ∧ r.accumulation ≠ none := by
  intro rest
  induction rest with
  | nil => intro i ct_final _ _ _; simp [process_layer_loop_combos]
  | cons row rest ih =>
    intro i ct_final hinv hrows hlen
    simp only [List.length_cons] at hlen
    obtain ⟨c1, h1⟩ : ∃ c1, multiply_plain_inplace P ct_in row = ⟨c1, none⟩ :=
      ⟨_, Outcome.eq_of_thrown_none _ (multiply_plain_inplace_thrown_none P ct_in row
        (hrows row (List.mem_cons_self _ _)) (by omega))⟩
    have hl1 := (multiply_plain_inplace_level P ct_in row).2
    rw [h1] at hl1
    have hc1l : c1.level + 1 = ct_in.level := hl1 rfl
    have hc1s := multiply_plain_inplace_scale P ct_in row c1 h1
    obtain ⟨c2, h2⟩ : ∃ c2, sum_all_slots_inplace P c1 = ⟨c2, none⟩ :=
      ⟨_, Outcome.eq_of_thrown_none _ (sum_all_slots_inplace_thrown P c1)⟩
    have hl2 := sum_all_slots_loop_level P (P.slot_count + 1) 1 c1
    have hs2 := sum_all_slots_loop_scale P (P.slot_count + 1) 1 c1
    have hc2l : c2.level = c1.level := by
      unfold sum_all_slots_inplace at h2
      rw [h2] at hl2
      exact hl2
    have hc2s : c2.scale = c1.scale := by
      unfold sum_all_slots_inplace at h2
      rw [h2] at hs2
      exact hs2
    obtain ⟨c, h3⟩ : ∃ c, mask_slot_inplace P c2 i = ⟨c, none⟩ := by
      refine ⟨_, Outcome.eq_of_thrown_none _ ?_⟩
      rw [mask_slot_inplace_eq c2 (by omega : i < P.slot_count)]
      exact multiply_plain_inplace_thrown_none P c2 _
        (le_of_eq (length_oneHot P.slot_count i)) (by omega)
    have hl3 := (mask_slot_inplace_level P c2 i).2
    rw [h3] at hl3
    have hcl : c.level + 1 = c2.level := hl3 rfl
    have hcs := mask_slot_inplace_scale P c2 i c h3
    have hcs2 : c.scale = scaleAfterMul P (ct_in.level - 1)
        (scaleAfterMul P ct_in.level ct_in.scale) := by
      rw [hcs, hc2s, hc1s, hc2l]
      congr 1
      omega
    obtain ⟨f1, hal, hf1l, hf1s⟩ : ∃ f1,
        (if ct_final.level ≠ c.level then
          match Evaluator.mod_switch_to ct_final c.level with
          | .error e => (.error e : Except Err Ciphertext)
          | .ok sw => .ok { sw with scale := c.scale }
        else .ok ct_final) = .ok f1 ∧ f1.level = c.level ∧ f1.scale = c.scale := by
      by_cases hne : ct_final.level ≠ c.level
      · have hge : ¬ ct_final.level < c.level := by
          rcases hinv with hge | ⟨h, _⟩ <;> omega
        refine ⟨{ ct_final with level := c.level, scale := c.scale }, ?_, rfl, rfl⟩
        simp [hne, Evaluator.mod_switch_to, hge]
      · have heq : ct_final.level = c.level := not_not.mp hne
        rcases hinv with hge | ⟨_, hsc⟩
        · omega
        · exact ⟨ct_final, by simp [heq], heq, by rw [hsc, hcs2]⟩
    obtain ⟨f2, hadd⟩ := (add_consistent_iff f1 c).mp ⟨hf1l, hf1s⟩
    have hrec := ih (i + 1) f2 (Or.inr ⟨by rw [add_level hadd, hf1l]; omega,
        by rw [add_scale hadd, hf1s, hcs2]⟩)
      (fun r hr => hrows r (List.mem_cons_of_mem _ hr)) (by omega)
    have hunfold : process_layer_loop_combos P ct_in (row :: rest) i ct_final
        = ⟨i, sum_all_slots_inplace_combos P c1, some (f1, c)⟩ ::
            process_layer_loop_combos P ct_in rest (i + 1) f2 := by
      rw [process_layer_loop_combos]
      simp only [h1, h2, h3, hal, hadd]
    rw [hunfold]
    refine ⟨?_, ?_⟩
    · simp only [List.map_cons, List.length_cons, List.range'_succ, hrec.1]
    · intro r hr
      rw [List.mem_cons] at hr
      rcases hr with rfl | hr
      · exact ⟨sum_all_slots_inplace_combos_length hS c1, by simp⟩
      · exact hrec.2 r hr

theorem process_layer_linear_combos_shape {P : Params} {n : Nat} (hS : P.slot_count = 2 ^ n)
    (ct_in : Ciphertext) (hl : 2 ≤ ct_in.level) (hltop : ct_in.level ≤ P.top)
    (weights : List (List ℚ)) (hrows : ∀ row ∈ weights, row.length ≤ P.slot_count)
    (hr : weights.length ≤ P.slot_count) :
    (process_layer_linear_combos P ct_in weights).map RowCombos.index
        = List.range weights.length ∧
      ∀ r ∈ process_layer_linear_combos P ct_in weights,
        r.reduction.length = n ∧ r.accumulation ≠ none := by
  have h := process_layer_loop_combos_shape hS ct_in hl weights 0
    (Encryptor.encrypt ⟨(List.range P.slot_count).map
      (fun j => (List.replicate P.slot_count (0.0 : ℚ)).getD j 0 * P.scale), P.top, P.scale⟩)
    (Or.inl hltop) hrows (by omega)
  rw [← List.range_eq_range'] at h
  unfold process_layer_linear_combos
  rw [encode_eq (le_of_eq (List.length_replicate _ _))]
  exact h

theorem smallCt_wf : WF smallParams smallCt := ⟨rfl, by norm_num [smallCt]⟩

theorem smallParams_valid : smallParams.Valid := by
  intro q hq
  simp [smallParams] at hq
  omega

theorem driverParams_valid : driverParams.Valid := by
  intro q hq
  simp [driverParams] at hq
  omega

theorem driverCt_wf : WF driverParams driverCt :=
  ⟨by simp [driverCt, driverParams], by norm_num [driverCt]⟩

theorem driverCt_value_zero : driverCt.value 0 = 1 := by
  simp only [Ciphertext.value, driverCt, getD_range_map]
  norm_num

/-! ## Main results -/

/-- C1: `process_layer_linear` computes the affine layer `W x + b`. For a slot
count that is a power of two, an input ciphertext of the chain with at least two
levels left, a weight matrix with `r` rows, `1 ≤ r ≤ slot_count`, each row of
at most `slot_count` entries, and a bias of at most `slot_count` entries (rows
and bias zero-padded), the call returns a ciphertext whose slot `i` holds
`∑ j, weights[i][j] * x[j] + b[i]` for `i < r` and exactly `b[i]` for `i ≥ r`. In
particular a single one-hot row `e_k` with zero bias leaves `x[k]` in slot 0. -/
theorem process_layer_linear_affine (P : Params) (hP : P.Valid) (n : Nat)
    (hS : P.slot_count = 2 ^ n) (ct_in : Ciphertext) (hct : WF P ct_in)
    (hl : 2 ≤ ct_in.level) (hltop : ct_in.level ≤ P.top)
    (weights : List (List ℚ)) (biases : List ℚ)
    (hrows : ∀ row ∈ weights, row.length ≤ P.slot_count) (hr0 : 1 ≤ weights.length)
    (hr : weights.length ≤ P.slot_count) (hb : biases.length ≤ P.slot_count) :
    (∃ out, process_layer_linear P ct_in weights biases = .ok out ∧
      (∀ i, i < weights.length →
        out.value i = ∑ j ∈ Finset.range P.slot_count,
          (weights.getD i []).getD j 0 * ct_in.value j + biases.getD i 0) ∧
      (∀ i, weights.length ≤ i → i < P.slot_count → out.value i = biases.getD i 0)) ∧
    (∀ k m, k < m → m ≤ P.slot_count →
      ∃ out, process_layer_linear P ct_in [oneHot m k] [0] = .ok out ∧
        out.value 0 = ct_in.value k) := by
  have hs := scaleAfterMul_ne_zero hP (ct_in.level - 1)
    (scaleAfterMul_ne_zero hP ct_in.level hct.2)
  constructor
  · obtain ⟨out, ho, hh⟩ := process_layer_linear_holds hS (Holds.of_WF hct) hl hltop
      weights biases hrows hr0 hr hb
    refine ⟨out, ho, fun i hi => ?_, fun i hi hiS => ?_⟩
    · rw [hh.value_eq hs (lt_of_lt_of_le hi hr), if_pos hi]
    · rw [hh.value_eq hs hiS, if_neg (not_lt.mpr hi), zero_add]
  · intro k m hkm hm
    obtain ⟨out, ho, hh⟩ := process_layer_linear_holds hS (Holds.of_WF hct) hl hltop
      [oneHot m k] [0]
      (by intro row hrow; rw [List.mem_singleton.mp hrow, length_oneHot]; exact hm)
      (by simp) (by simp; omega) (by simp; omega)
    refine ⟨out, ho, ?_⟩
    rw [hh.value_eq hs (by omega)]
    simp only [List.length_singleton, Nat.lt_one_iff, if_true, List.getD_cons_zero, add_zero]
    rw [Finset.sum_eq_single k]
    · rw [getD_oneHot hkm, if_pos rfl, one_mul]
    · intro j _ hjk
      rw [getD_oneHot hkm, if_neg hjk, zero_mul]
    · intro hk
      exact absurd (Finset.mem_range.mpr (by omega)) hk

/-- Instance of C1: a 2×3 weight matrix on four slots holding 1, 2, 3, 4. -/
theorem process_layer_linear_affine_witness :
    (∃ out, process_layer_linear smallParams smallCt [[1, 0, 2], [0, 1]] [5, 6, 7] = .ok out ∧
      (∀ i, i < ([[1, 0, 2], [0, 1]] : List (List ℚ)).length →
        out.value i = ∑ j ∈ Finset.range smallParams.slot_count,
          (([[1, 0, 2], [0, 1]] : List (List ℚ)).getD i []).getD j 0 * smallCt.value j
            + ([5, 6, 7] : List ℚ).getD i 0) ∧
      (∀ i, ([[1, 0, 2], [0, 1]] : List (List ℚ)).length ≤ i → i < smallParams.slot_count →
        out.value i = ([5, 6, 7] : List ℚ).getD i 0)) ∧
    (∀ k m, k < m → m ≤ smallParams.slot_count →
      ∃ out, process_layer_linear smallParams smallCt [oneHot m k] [0] = .ok out ∧
        out.value 0 = smallCt.value k) :=
  process_layer_linear_affine smallParams smallParams_valid 2 rfl smallCt smallCt_wf
    (by decide) (by decide) [[1, 0, 2], [0, 1]] [5, 6, 7]
    (by intro row hrow; simp at hrow; rcases hrow with rfl | rfl <;> decide)
    (by decide) (by decide) (by decide)

/-- C2: `sum_all_slots_inplace` is a total reduction. For a slot count that is a
power of two and a ciphertext with that many slots, the call returns normally,
keeps level and scale, and leaves in every slot the sum of all original slot
values; for an encrypted cleartext vector of at most `slot_count` entries
(zero-padded by the encoder) that is the sum of the vector. -/
theorem sum_all_slots_inplace_total (P : Params) (n : Nat) (hS : P.slot_count = 2 ^ n)
    (ct : Ciphertext) (hct : WF P ct) :
    (∃ out, sum_all_slots_inplace P ct = ⟨out, none⟩ ∧
      out.raw.length = P.slot_count ∧ out.level = ct.level ∧ out.scale = ct.scale ∧
      ∀ j, j < P.slot_count →
        out.value j = ∑ t ∈ Finset.range P.slot_count, ct.value t) ∧
    (∀ (vec : List ℚ) (l : Nat) (s : ℚ), vec.length ≤ P.slot_count → s ≠ 0 →
      ∃ pt out, Encoder.encode P vec l s = .ok pt ∧
        sum_all_slots_inplace P (Encryptor.encrypt pt) = ⟨out, none⟩ ∧
        ∀ j, j < P.slot_count → out.value j = vec.sum) := by
  constructor
  · obtain ⟨out, ho, hh⟩ := sum_all_slots_inplace_holds hS (Holds.of_WF hct)
    exact ⟨out, ho, hh.1, hh.2.1, hh.2.2.1, fun j hj => hh.value_eq hct.2 hj⟩
  · intro vec l s hv hs
    obtain ⟨pt, hpt, hh⟩ := encode_holds hv l s
    obtain ⟨out, ho, hoh⟩ := sum_all_slots_inplace_holds hS hh
    refine ⟨pt, out, hpt, ho, fun j hj => ?_⟩
    rw [hoh.value_eq hs hj]
    exact sum_range_getD vec _ hv

/-- Instance of C2: four slots holding 1, 2, 3, 4. -/
theorem sum_all_slots_inplace_total_witness :
    (∃ out, sum_all_slots_inplace smallParams smallCt = ⟨out, none⟩ ∧
      out.raw.length = smallParams.slot_count ∧ out.level = smallCt.level ∧
      out.scale = smallCt.scale ∧
      ∀ j, j < smallParams.slot_count →
        out.value j = ∑ t ∈ Finset.range smallParams.slot_count, smallCt.value t) ∧
    (∀ (vec : List ℚ) (l : Nat) (s : ℚ), vec.length ≤ smallParams.slot_count → s ≠ 0 →
      ∃ pt out, Encoder.encode smallParams vec l s = .ok pt ∧
        sum_all_slots_inplace smallParams (Encryptor.encrypt pt) = ⟨out, none⟩ ∧
        ∀ j, j < smallParams.slot_count → out.value j = vec.sum) :=
  sum_all_slots_inplace_total smallParams 2 rfl smallCt smallCt_wf

/-- C3: `mask_slot_inplace` keeps exactly one slot. On a ciphertext that is not
at the last level and for an index below the slot count, the call returns
normally, is the multiplication by the one-hot vector of length `slot_count`
with 1 at the index, and the result holds the original value in the slot of
that index and 0 in every other slot. -/
theorem mask_slot_inplace_keeps_one_slot (P : Params) (hP : P.Valid) (ct : Ciphertext)
    (hct : WF P ct) (index : Nat) (hi : index < P.slot_count) (hl : ct.level ≠ 0) :
    ∃ out, mask_slot_inplace P ct index = ⟨out, none⟩ ∧
      mask_slot_inplace P ct index
        = multiply_plain_inplace P ct ((List.replicate P.slot_count (0 : ℚ)).set index 1) ∧
      out.raw.length = P.slot_count ∧
      out.value index = ct.value index ∧
      ∀ j, j ≠ index → out.value j = 0 := by
  obtain ⟨out, ho, hh⟩ := mask_slot_inplace_holds (Holds.of_WF hct) hi hl
  have hs := scaleAfterMul_ne_zero hP ct.level hct.2
  refine ⟨out, ho, mask_slot_inplace_eq ct hi, hh.1, ?_, fun j hj => ?_⟩
  · rw [hh.value_eq hs hi, if_pos rfl]
  · by_cases hjS : j < P.slot_count
    · rw [hh.value_eq hs hjS, if_neg hj]
    · unfold Ciphertext.value
      rw [List.getD_eq_default _ _ (by rw [hh.1]; omega)]
      simp

/-- Instance of C3: masking slot 2 of four slots holding 1, 2, 3, 4. -/
theorem mask_slot_inplace_keeps_one_slot_witness :
    ∃ out, mask_slot_inplace smallParams smallCt 2 = ⟨out, none⟩ ∧
      mask_slot_inplace smallParams smallCt 2
        = multiply_plain_inplace smallParams smallCt
            ((List.replicate smallParams.slot_count (0 : ℚ)).set 2 1) ∧
      out.raw.length = smallParams.slot_count ∧
      out.value 2 = smallCt.value 2 ∧
      ∀ j, j ≠ 2 → out.value j = 0 :=
  mask_slot_inplace_keeps_one_slot smallParams smallParams_valid smallCt smallCt_wf 2
    (by decide) (by decide)

/-- C4: `apply_poly_relu_inplace` evaluates `0.25 x² + 0.5 x` slot-wise. On a
ciphertext with at least two levels left and for a size of at most
`slot_count`, the call returns normally and slot `j` of the result, for every
`j < size`, holds `0.25 * x j ^ 2 + 0.5 * x j`; this is the value of the
factorised schedule `0.5 x * (0.5 x + 1)`. -/
theorem apply_poly_relu_inplace_polynomial (P : Params) (hP : P.Valid) (ct : Ciphertext)
    (hct : WF P ct) (size : Nat) (hsz : size ≤ P.slot_count) (hl : 2 ≤ ct.level) :
    ∃ out, apply_poly_relu_inplace P ct size = ⟨out, none⟩ ∧
      ∀ j, j < size →
        out.value j = 0.25 * ct.value j ^ 2 + 0.5 * ct.value j ∧
        out.value j = 0.5 * ct.value j * (0.5 * ct.value j + 1) := by
  obtain ⟨out, ho, hh⟩ := apply_poly_relu_inplace_holds (Holds.of_WF hct) hsz hl
  have hs := scaleAfterMul_ne_zero hP (ct.level - 1) (scaleAfterMul_ne_zero hP ct.level hct.2)
  refine ⟨out, ho, fun j hj => ?_⟩
  rw [hh.value_eq hs (lt_of_lt_of_le hj hsz), if_pos hj]
  exact ⟨rfl, by ring⟩

/-- Instance of C4: the polynomial on the first three of four slots. -/
theorem apply_poly_relu_inplace_polynomial_witness :
    ∃ out, apply_poly_relu_inplace smallParams smallCt 3 = ⟨out, none⟩ ∧
      ∀ j, j < 3 →
        out.value j = 0.25 * smallCt.value j ^ 2 + 0.5 * smallCt.value j ∧
        out.value j = 0.5 * smallCt.value j * (0.5 * smallCt.value j + 1) :=
  apply_poly_relu_inplace_polynomial smallParams smallParams_valid smallCt smallCt_wf 3
    (by decide) (by decide)

/-- C5, as stated, fails: on a fresh ciphertext of the driver parameters holding
1 in slot 0, `apply_poly_sigmoid_inplace` returns normally and slot 0 of the
result differs from `0.5 + 0.197 * 1 - 0.004 * 1 ^ 3`. -/
theorem apply_poly_sigmoid_inplace_counterexample :
    ∃ out, apply_poly_sigmoid_inplace driverParams driverCt 1 = ⟨out, none⟩ ∧
      out.value 0 ≠ 0.5 + 0.197 * driverCt.value 0 - 0.004 * driverCt.value 0 ^ 3 := by
  obtain ⟨out, ho, hh⟩ := apply_poly_sigmoid_inplace_holds driverParams_valid
    (Holds.of_WF driverCt_wf) driverCt_wf.2 (by decide : 1 ≤ driverParams.slot_count)
    (by decide : 3 ≤ driverCt.level)
  refine ⟨out, ho, ?_⟩
  have hs : sigmoidScale driverParams driverCt.level driverCt.scale ≠ 0 :=
    scaleAfterMul_ne_zero driverParams_valid _ (scaleAfterMul_ne_zero driverParams_valid _
      (scaleAfterMul_ne_zero driverParams_valid _ driverCt_wf.2))
  rw [hh.value_eq hs (by decide : 0 < driverParams.slot_count), driverCt_value_zero]
  norm_num [sigmoidLinFactor, sigmoidCubicFactor, Params.modulus, driverParams, driverCt]

/-- C5, amended: `apply_poly_sigmoid_inplace` evaluates, slot-wise,
`0.5 + 0.197 * (a * x) - 0.004 * (b * x ^ 3)` where, for an input of scale `s` at
level `l`, `a = q l ^ 2 * q (l - 1) / s ^ 3` and `b = q l / s` are the factors
introduced by the reassignments of the scale of `ct_in`, `q k` being the modulus
divided out by a rescaling at level `k`. With three levels left and a size of at
most `slot_count` the call returns normally and every slot `j < size` holds that
value; it is `0.5 + 0.197 * x - 0.004 * x ^ 3` when both moduli equal `s`. -/
theorem apply_poly_sigmoid_inplace_scaled_polynomial (P : Params) (hP : P.Valid)
    (ct : Ciphertext) (hct : WF P ct) (size : Nat) (hsz : size ≤ P.slot_count)
    (hl : 3 ≤ ct.level) :
    ∃ out, apply_poly_sigmoid_inplace P ct size = ⟨out, none⟩ ∧
      (∀ j, j < size →
        out.value j = 0.5 + 0.197 * (sigmoidLinFactor P ct.level ct.scale * ct.value j)
          - 0.004 * (sigmoidCubicFactor P ct.level ct.scale * ct.value j ^ 3)) ∧
      (P.modulus ct.level = ct.scale → P.modulus (ct.level - 1) = ct.scale →
        ∀ j, j < size →
          out.value j = 0.5 + 0.197 * ct.value j - 0.004 * ct.value j ^ 3) := by
  obtain ⟨out, ho, hh⟩ := apply_poly_sigmoid_inplace_holds hP (Holds.of_WF hct) hct.2 hsz hl
  have hs : sigmoidScale P ct.level ct.scale ≠ 0 :=
    scaleAfterMul_ne_zero hP _ (scaleAfterMul_ne_zero hP _ (scaleAfterMul_ne_zero hP _ hct.2))
  have hval : ∀ j, j < size →
      out.value j = 0.5 + 0.197 * (sigmoidLinFactor P ct.level ct.scale * ct.value j)
        - 0.004 * (sigmoidCubicFactor P ct.level ct.scale * ct.value j ^ 3) := by
    intro j hj
    rw [hh.value_eq hs (lt_of_lt_of_le hj hsz), if_pos hj]
  refine ⟨out, ho, hval, fun h1 h2 j hj => ?_⟩
  have hne := hct.2
  have ha : sigmoidLinFactor P ct.level ct.scale = 1 := by
    unfold sigmoidLinFactor
    rw [h1, h2]
    field_simp
    ring
  have hb : sigmoidCubicFactor P ct.level ct.scale = 1 := by
    unfold sigmoidCubicFactor
    rw [h1]
    field_simp
  rw [hval j hj, ha, hb, one_mul, one_mul]

/-- Instance of C5 (amended): four slots holding 1, 2, 3, 4 at level 3. -/
theorem apply_poly_sigmoid_inplace_scaled_polynomial_witness :
    ∃ out, apply_poly_sigmoid_inplace smallParams smallCt 3 = ⟨out, none⟩ ∧
      (∀ j, j < 3 →
        out.value j
          = 0.5 + 0.197 * (sigmoidLinFactor smallParams smallCt.level smallCt.scale
              * smallCt.value j)
            - 0.004 * (sigmoidCubicFactor smallParams smallCt.level smallCt.scale
              * smallCt.value j ^ 3)) ∧
      (smallParams.modulus smallCt.level = smallCt.scale →
        smallParams.modulus (smallCt.level - 1) = smallCt.scale →
        ∀ j, j < 3 →
          out.value j = 0.5 + 0.197 * smallCt.value j - 0.004 * smallCt.value j ^ 3) :=
  apply_poly_sigmoid_inplace_scaled_polynomial smallParams smallParams_valid smallCt
    smallCt_wf 3 (by decide) (by decide)

/-- C6, as stated, fails: with the driver parameters, a row of thirty zero
features and label 1, and one-row layers with zero weights and biases 0, 0 and
7, the plaintext network outputs `sigmoidPoly 7 = 0.507 > 0.5`, so its
diagnosis 1 equals the label, yet `checkStatus` returns false. -/
theorem checkStatus_counterexample :
    ∃ data, minmax_scale (zeroRow.take 30) = .ok data ∧
      (plain_network [List.replicate 30 0] [0] [[0]] [0] [[0]] [7] data).getD 0 0 > 0.5 ∧
      plain_diagnosis [List.replicate 30 0] [0] [[0]] [0] [[0]] [7] data = 1 ∧
      truncToInt (zeroRow.getD 30 0) = 1 ∧
      checkStatus driverParams zeroRow [0] [0] [7] [List.replicate 30 0] [[0]] [[0]]
        = .ok false := by
  obtain ⟨data, hdata, hcs⟩ := checkStatus_eq driverParams_valid
    (by rfl : driverParams.slot_count = 2 ^ 14) (by decide)
    (by norm_num [driverParams] : driverParams.scale ≠ 0) (by decide) zeroRow (by rfl)
    [0] [0] [7] [List.replicate 30 0] [[0]] [[0]]
    (by intro row hrow; rw [List.mem_singleton.mp hrow]; decide)
    (by intro row hrow; rw [List.mem_singleton.mp hrow]; decide)
    (by intro row hrow; rw [List.mem_singleton.mp hrow]; decide)
    rfl rfl rfl (by decide) (by decide) (by decide)
  have hnet : (plain_network [List.replicate 30 0] [0] [[0]] [0] [[0]] [7] data).getD 0 0
      > 0.5 := by
    rw [getD_plain_network _ _ _ _ _ _ _ (by rw [plain_preactivation_const]; decide),
      plain_preactivation_const]
    norm_num [sigmoidPoly]
  have hlabel : truncToInt (zeroRow.getD 30 0) = 1 := by
    have : zeroRow.getD 30 0 = 1 := by decide
    rw [this]
    rfl
  have hscaled : scaled_diagnosis driverParams [List.replicate 30 0] [0] [[0]] [0] [[0]] [7]
      data = 0 := by
    unfold scaled_diagnosis
    rw [plain_preactivation_const]
    norm_num [sigmoidEntry, afterLayer, afterRelu, scaleAfterMul, sigmoidLinFactor,
      sigmoidCubicFactor, Params.modulus, Params.top, driverParams]
  refine ⟨data, hdata, hnet, ?_, hlabel, ?_⟩
  · unfold plain_diagnosis
    rw [if_pos hnet]
  · rw [hcs, hlabel, hscaled]
    rfl

/-- C6, amended: `checkStatus` agrees with the plaintext network up to the scale
factors of the sigmoid. For a slot count that is a power of two and at least
128, a chain allowing 13 rescalings, a 31-entry row and three layers with
compatible shapes (at most 128 and 64 rows in layers 0 and 1, as many biases as
rows, rows of at most `slot_count` entries), the model diagnosis is 1 exactly
when `0.5 + 0.197 * (a * z) - 0.004 * (b * z ^ 3) > 0.5`, where `z` is output 0 of
`W2 * reluPoly (W1 * reluPoly (W0 * x + b0) + b1) + b2` on the normalised input `x`
and `a`, `b` are the scale factors of `apply_poly_sigmoid_inplace` at the level
and scale with which `ct_data3` enters it; `checkStatus` returns true exactly
when that diagnosis equals the label truncated to an integer; and when both
factors are 1 the diagnosis is that of the plaintext network. -/
theorem checkStatus_scaled_agreement (P : Params) (hP : P.Valid) (n : Nat)
    (hS : P.slot_count = 2 ^ n) (h128 : 128 ≤ P.slot_count) (hscale : P.scale ≠ 0)
    (htop : 13 ≤ P.top) (tempData : List ℚ) (hrow : tempData.length = 31)
    (b0 b1 b2 : List ℚ) (W0 W1 W2 : List (List ℚ))
    (hW0 : ∀ row ∈ W0, row.length ≤ P.slot_count) (hW1 : ∀ row ∈ W1, row.length ≤ P.slot_count)
    (hW2 : ∀ row ∈ W2, row.length ≤ P.slot_count)
    (hb0 : b0.length = W0.length) (hb1 : b1.length = W1.length) (hb2 : b2.length = W2.length)
    (hr0 : W0.length ≤ 128) (hr1 : W1.length ≤ 64) (hr2 : W2.length ≤ P.slot_count) :
    ∃ data, minmax_scale (tempData.take 30) = .ok data ∧
      checkStatus P tempData b0 b1 b2 W0 W1 W2
        = .ok (decide (truncToInt (tempData.getD 30 0)
            = scaled_diagnosis P W0 b0 W1 b1 W2 b2 data)) ∧
      (sigmoidLinFactor P (sigmoidEntry P W0.length W1.length W2.length).1
          (sigmoidEntry P W0.length W1.length W2.length).2 = 1 →
        sigmoidCubicFactor P (sigmoidEntry P W0.length W1.length W2.length).1
          (sigmoidEntry P W0.length W1.length W2.length).2 = 1 →
        scaled_diagnosis P W0 b0 W1 b1 W2 b2 data
          = plain_diagnosis W0 b0 W1 b1 W2 b2 data) := by
  obtain ⟨data, hdata, hcs⟩ := checkStatus_eq hP hS h128 hscale htop tempData hrow
    b0 b1 b2 W0 W1 W2 hW0 hW1 hW2 hb0 hb1 hb2 hr0 hr1 hr2
  exact ⟨data, hdata, hcs, scaled_diagnosis_eq_plain P W0 b0 W1 b1 W2 b2 data⟩

/-- Instance of C6 (amended): the driver parameters, a zero row with label 1 and
one-row layers. -/
theorem checkStatus_scaled_agreement_witness :
    ∃ data, minmax_scale (zeroRow.take 30) = .ok data ∧
      checkStatus driverParams zeroRow [0] [0] [1] [List.replicate 30 1] [[1]] [[1]]
        = .ok (decide (truncToInt (zeroRow.getD 30 0)
            = scaled_diagnosis driverParams [List.replicate 30 1] [0] [[1]] [0] [[1]] [1]
                data)) ∧
      (sigmoidLinFactor driverParams (sigmoidEntry driverParams 1 1 1).1
          (sigmoidEntry driverParams 1 1 1).2 = 1 →
        sigmoidCubicFactor driverParams (sigmoidEntry driverParams 1 1 1).1
          (sigmoidEntry driverParams 1 1 1).2 = 1 →
        scaled_diagnosis driverParams [List.replicate 30 1] [0] [[1]] [0] [[1]] [1] data
          = plain_diagnosis [List.replicate 30 1] [0] [[1]] [0] [[1]] [1] data) :=
  checkStatus_scaled_agreement driverParams driverParams_valid 14 (by rfl) (by decide)
    (by norm_num [driverParams]) (by decide) zeroRow (by rfl)
    [0] [0] [1] [List.replicate 30 1] [[1]] [[1]]
    (by intro row hrow; rw [List.mem_singleton.mp hrow]; decide)
    (by intro row hrow; rw [List.mem_singleton.mp hrow]; decide)
    (by intro row hrow; rw [List.mem_singleton.mp hrow]; decide)
    rfl rfl rfl (by decide) (by decide) (by decide)

/-- C7: depth budget of the fixed pipeline. For a chain of `L ≥ 15` moduli (20 in
the driver), a slot count that is a power of two and at least 128, a 31-entry
row and three non-empty layers whose rows, row counts and biases fit the slot
count, the pipeline of `checkStatus` returns normally, so no rescaling is ever
attempted at the last level; the ciphertext that is decrypted lies exactly 13
levels below the fresh one, whatever the input and the weight and bias values;
and 13 does not exceed `L - 1`. -/
theorem checkStatus_depth_budget (P : Params) (hP : P.Valid) (n : Nat)
    (hS : P.slot_count = 2 ^ n) (h128 : 128 ≤ P.slot_count) (hscale : P.scale ≠ 0)
    (hL : 15 ≤ P.coeff_modulus.length) (tempData : List ℚ) (hrow : tempData.length = 31)
    (b0 b1 b2 : List ℚ) (W0 W1 W2 : List (List ℚ))
    (hW0 : ∀ row ∈ W0, row.length ≤ P.slot_count) (h0 : 1 ≤ W0.length)
    (hr0 : W0.length ≤ P.slot_count) (hb0 : b0.length ≤ P.slot_count)
    (hW1 : ∀ row ∈ W1, row.length ≤ P.slot_count) (h1 : 1 ≤ W1.length)
    (hr1 : W1.length ≤ P.slot_count) (hb1 : b1.length ≤ P.slot_count)
    (hW2 : ∀ row ∈ W2, row.length ≤ P.slot_count) (h2 : 1 ≤ W2.length)
    (hr2 : W2.length ≤ P.slot_count) (hb2 : b2.length ≤ P.slot_count) :
    (∃ out, checkStatus_ciphertext P tempData b0 b1 b2 W0 W1 W2 = .ok out ∧
      out.level + 13 = P.top) ∧
    (∃ res, checkStatus P tempData b0 b1 b2 W0 W1 W2 = .ok res) ∧
    13 ≤ P.coeff_modulus.length - 1 := by
  have htop : 13 ≤ P.top := by
    unfold Params.top
    omega
  obtain ⟨data, out, _, _, hout, hlv, _⟩ := checkStatus_ciphertext_holds hP hS h128 hscale
    htop tempData hrow b0 b1 b2 W0 W1 W2 hW0 hr0 hb0 hW1 hr1 hb1 hW2 hr2 hb2
  have hentry : (sigmoidEntry P W0.length W1.length W2.length).1 = P.top - 10 := by
    have e0 : W0.length ≠ 0 := by omega
    have e1 : W1.length ≠ 0 := by omega
    have e2 : W2.length ≠ 0 := by omega
    simp only [sigmoidEntry, afterLayer, afterRelu, if_neg e0, if_neg e1, if_neg e2]
    omega
  refine ⟨⟨out, hout, by omega⟩, ?_, by omega⟩
  simp only [checkStatus, hout]
  exact ⟨_, rfl⟩

/-- Instance of C7: the driver parameters, with their chain of 20 moduli. -/
theorem checkStatus_depth_budget_witness :
    (∃ out, checkStatus_ciphertext driverParams zeroRow [0] [0] [1]
        [List.replicate 30 1] [[1]] [[1]] = .ok out ∧
      out.level + 13 = driverParams.top) ∧
    (∃ res, checkStatus driverParams zeroRow [0] [0] [1]
        [List.replicate 30 1] [[1]] [[1]] = .ok res) ∧
    13 ≤ driverParams.coeff_modulus.length - 1 :=
  checkStatus_depth_budget driverParams driverParams_valid 14 (by rfl) (by decide)
    (by norm_num [driverParams]) (by decide) zeroRow (by rfl)
    [0] [0] [1] [List.replicate 30 1] [[1]] [[1]]
    (by intro row hrow; rw [List.mem_singleton.mp hrow]; decide) (by decide) (by decide)
    (by decide)
    (by intro row hrow; rw [List.mem_singleton.mp hrow]; decide) (by decide) (by decide)
    (by decide)
    (by intro row hrow; rw [List.mem_singleton.mp hrow]; decide) (by decide) (by decide)
    (by decide)

/-- C8: fixed level cost of the helper operations, independent of the slot
values and of the vector argument. On a normal return `add_plain_inplace` and
`sum_all_slots_inplace` leave the level unchanged, `multiply_plain_inplace` and
`mask_slot_inplace` leave it exactly one lower, `apply_poly_relu_inplace` exactly
two lower; whatever the outcome the level of the ciphertext is never raised;
and for a ciphertext with two levels left and arguments in range all five calls
do return normally. -/
theorem helper_level_costs (P : Params) (ct : Ciphertext) (vec : List ℚ)
    (index size : Nat) :
    ((∀ out, add_plain_inplace P ct vec = ⟨out, none⟩ → out.level = ct.level) ∧
     (∀ out, sum_all_slots_inplace P ct = ⟨out, none⟩ → out.level = ct.level) ∧
     (∀ out, multiply_plain_inplace P ct vec = ⟨out, none⟩ → out.level + 1 = ct.level) ∧
     (∀ out, mask_slot_inplace P ct index = ⟨out, none⟩ → out.level + 1 = ct.level) ∧
     (∀ out, apply_poly_relu_inplace P ct size = ⟨out, none⟩ → out.level + 2 = ct.level)) ∧
    ((add_plain_inplace P ct vec).ct.level ≤ ct.level ∧
     (sum_all_slots_inplace P ct).ct.level ≤ ct.level ∧
     (multiply_plain_inplace P ct vec).ct.level ≤ ct.level ∧
     (mask_slot_inplace P ct index).ct.level ≤ ct.level ∧
     (apply_poly_relu_inplace P ct size).ct.level ≤ ct.level) ∧
    (vec.length ≤ P.slot_count → index < P.slot_count → size ≤ P.slot_count →
      2 ≤ ct.level →
      (add_plain_inplace P ct vec).thrown = none ∧
      (sum_all_slots_inplace P ct).thrown = none ∧
      (multiply_plain_inplace P ct vec).thrown = none ∧
      (mask_slot_inplace P ct index).thrown = none ∧
      (apply_poly_relu_inplace P ct size).thrown = none) := by
  refine ⟨⟨?_, ?_, ?_, ?_, ?_⟩, ⟨?_, ?_, ?_, ?_, ?_⟩, ?_⟩
  · intro out h
    have := add_plain_inplace_level P ct vec
    rwa [h] at this
  · intro out h
    have := sum_all_slots_loop_level P (P.slot_count + 1) 1 ct
    unfold sum_all_slots_inplace at h
    rwa [h] at this
  · intro out h
    have := (multiply_plain_inplace_level P ct vec).2
    rw [h] at this
    exact this rfl
  · intro out h
    have := (mask_slot_inplace_level P ct index).2
    rw [h] at this
    exact this rfl
  · intro out h
    have := (apply_poly_relu_inplace_level P ct size).2
    rw [h] at this
    exact this rfl
  · exact le_of_eq (add_plain_inplace_level P ct vec)
  · exact le_of_eq (sum_all_slots_loop_level P (P.slot_count + 1) 1 ct)
  · exact (multiply_plain_inplace_level P ct vec).1
  · exact (mask_slot_inplace_level P ct index).1
  · exact (apply_poly_relu_inplace_level P ct size).1
  · intro hv hi hsz hl
    refine ⟨add_plain_inplace_thrown_none P ct vec hv, sum_all_slots_inplace_thrown P ct,
      multiply_plain_inplace_thrown_none P ct vec hv (by omega), ?_,
      apply_poly_relu_inplace_thrown_none P ct size hsz hl⟩
    rw [mask_slot_inplace_eq ct hi]
    exact multiply_plain_inplace_thrown_none P ct _
      (le_of_eq (length_oneHot P.slot_count index)) (by omega)

/-- Instance of C8: the five calls on four slots at level 3 return normally. -/
theorem helper_level_costs_witness :
    (add_plain_inplace smallParams smallCt [1, 2]).thrown = none ∧
    (sum_all_slots_inplace smallParams smallCt).thrown = none ∧
    (multiply_plain_inplace smallParams smallCt [1, 2]).thrown = none ∧
    (mask_slot_inplace smallParams smallCt 2).thrown = none ∧
    (apply_poly_relu_inplace smallParams smallCt 3).thrown = none :=
  (helper_level_costs smallParams smallCt [1, 2] 2 3).2.2 (by decide) (by decide)
    (by decide) (by decide)

/-- C9: `mask_slot_inplace` rejects an out-of-range index. The call ends with the
invalid-index exception exactly when `index ≥ slot_count`; in that case the
check precedes every backend call, so the ciphertext is left as it was, whatever
its level; and for `index < slot_count` the call is the multiplication by the
one-hot vector, which never raises that exception. -/
theorem mask_slot_inplace_index_check (P : Params) (ct : Ciphertext) (index : Nat) :
    ((mask_slot_inplace P ct index).thrown = some .invalidIndex ↔ P.slot_count ≤ index) ∧
    (P.slot_count ≤ index → mask_slot_inplace P ct index = ⟨ct, some .invalidIndex⟩) ∧
    (index < P.slot_count →
      mask_slot_inplace P ct index
        = multiply_plain_inplace P ct ((List.replicate P.slot_count (0 : ℚ)).set index 1) ∧
      (mask_slot_inplace P ct index).thrown ≠ some .invalidIndex) := by
  have hge : P.slot_count ≤ index → mask_slot_inplace P ct index = ⟨ct, some .invalidIndex⟩ := by
    intro h
    simp [mask_slot_inplace, h]
  have hlt : index < P.slot_count →
      (mask_slot_inplace P ct index).thrown ≠ some .invalidIndex := by
    intro h
    rw [mask_slot_inplace_eq ct h]
    exact multiply_plain_inplace_thrown P ct _
  refine ⟨⟨fun h => ?_, fun h => by rw [hge h]⟩, hge, fun h => ⟨mask_slot_inplace_eq ct h, hlt h⟩⟩
  by_contra hcon
  exact hlt (not_le.mp hcon) h

/-- Instance of C9: index 4 on four slots, on a ciphertext at the last level. -/
theorem mask_slot_inplace_index_check_witness :
    mask_slot_inplace smallParams ⟨[128, 256, 384, 512], 0, 128⟩ 4
      = ⟨⟨[128, 256, 384, 512], 0, 128⟩, some .invalidIndex⟩ :=
  (mask_slot_inplace_index_check smallParams ⟨[128, 256, 384, 512], 0, 128⟩ 4).2.1 (by decide)

/-- C10: the level cost of `apply_poly_sigmoid_inplace` is 3, not the 2 of its
documentation. Every normal return leaves the ciphertext written back into
`ct_in` exactly three levels below the level on entry (one for `x²`, one for
`x³`, one for the multiplications by the coefficients, which rescale); on a
fresh ciphertext of the driver parameters, at level 18, the call returns
normally with a result at level 15. -/
theorem apply_poly_sigmoid_inplace_depth_three :
    (∀ (P : Params) (ct : Ciphertext) (size : Nat) (out : Ciphertext),
      apply_poly_sigmoid_inplace P ct size = ⟨out, none⟩ → out.level + 3 = ct.level) ∧
    (∃ out, apply_poly_sigmoid_inplace driverParams driverCt 1 = ⟨out, none⟩ ∧
      out.level = 15 ∧ driverCt.level = 18 ∧ out.level + 2 ≠ driverCt.level) := by
  refine ⟨apply_poly_sigmoid_inplace_level, ?_⟩
  obtain ⟨out, ho, _⟩ := apply_poly_sigmoid_inplace_holds driverParams_valid
    (Holds.of_WF driverCt_wf) driverCt_wf.2 (by decide : 1 ≤ driverParams.slot_count)
    (by decide : 3 ≤ driverCt.level)
  have hlv := apply_poly_sigmoid_inplace_level driverParams driverCt 1 out ho
  have h18 : driverCt.level = 18 := rfl
  exact ⟨out, ho, by omega, h18, by omega⟩

/-- C11: level and scale consistency of every combination. Every addition or
multiplication of two ciphertexts requested inside `sum_all_slots_inplace`,
`apply_poly_relu_inplace` and `apply_poly_sigmoid_inplace`, for every input
ciphertext and size, has two operands at the same level, and every addition two
operands with the same scale; the same holds inside `process_layer_linear` for
every input ciphertext of the chain and every weight matrix, where in every
iteration the accumulator and the per-row ciphertext have equal level and scale
when they are added. With three levels left and arguments that fit the slot
count these combinations are all reached: one addition per stride in the
reduction, one multiplication in the ReLU, two multiplications and one addition
in the sigmoid, and one reduction and one accumulation for every row index. -/
theorem combinations_consistent (P : Params) (ct : Ciphertext) (size : Nat)
    (weights : List (List ℚ)) :
    ((∀ c ∈ sum_all_slots_inplace_combos P ct, c.consistent) ∧
     (∀ c ∈ apply_poly_relu_inplace_combos P ct size, c.consistent) ∧
     (∀ c ∈ apply_poly_sigmoid_inplace_combos P ct size, c.consistent)) ∧
    (ct.level ≤ P.top →
      ∀ r ∈ process_layer_linear_combos P ct weights,
        (∀ c ∈ r.reduction, c.consistent) ∧
        ∀ acc cur, r.accumulation = some (acc, cur) →
          acc.level = cur.level ∧ acc.scale = cur.scale) ∧
    (∀ n, P.slot_count = 2 ^ n → size ≤ P.slot_count → 3 ≤ ct.level → ct.level ≤ P.top →
      (∀ row ∈ weights, row.length ≤ P.slot_count) → weights.length ≤ P.slot_count →
      (sum_all_slots_inplace_combos P ct).length = n ∧
      (apply_poly_relu_inplace_combos P ct size).length = 1 ∧
      (apply_poly_sigmoid_inplace_combos P ct size).length = 3 ∧
      (process_layer_linear_combos P ct weights).map RowCombos.index
        = List.range weights.length ∧
      ∀ r ∈ process_layer_linear_combos P ct weights,
        r.reduction.length = n ∧ r.accumulation ≠ none) ∧
    ((∀ a b, Combo.consistent (.add a b) ↔ ∃ c, Evaluator.add a b = .ok c) ∧
     (∀ a b, Combo.consistent (.multiply a b) ↔ ∃ c, Evaluator.multiply a b = .ok c)) := by
  refine ⟨⟨sum_all_slots_loop_combos_consistent P (P.slot_count + 1) 1 ct,
    apply_poly_relu_inplace_combos_consistent P ct size,
    apply_poly_sigmoid_inplace_combos_consistent P ct size⟩,
    fun hltop => process_layer_linear_combos_consistent P ct hltop weights, ?_,
    ⟨add_consistent_iff, multiply_consistent_iff⟩⟩
  intro n hS hsz hl hltop hrows hr
  have hshape := process_layer_linear_combos_shape hS ct (by omega) hltop weights hrows hr
  exact ⟨sum_all_slots_inplace_combos_length hS ct,
    apply_poly_relu_inplace_combos_length P ct size hsz (by omega),
    apply_poly_sigmoid_inplace_combos_length P ct size hsz hl, hshape.1, hshape.2⟩

/-- Instance of C11: four slots at level 3 and a weight matrix of two rows. -/
theorem combinations_consistent_witness :
    (∀ r ∈ process_layer_linear_combos smallParams smallCt [[1, 0, 2], [0, 1]],
        (∀ c ∈ r.reduction, c.consistent) ∧
        ∀ acc cur, r.accumulation = some (acc, cur) →
          acc.level = cur.level ∧ acc.scale = cur.scale) ∧
    ((sum_all_slots_inplace_combos smallParams smallCt).length = 2 ∧
      (apply_poly_relu_inplace_combos smallParams smallCt 3).length = 1 ∧
      (apply_poly_sigmoid_inplace_combos smallParams smallCt 3).length = 3 ∧
      (process_layer_linear_combos smallParams smallCt [[1, 0, 2], [0, 1]]).map
          RowCombos.index
        = List.range ([[1, 0, 2], [0, 1]] : List (List ℚ)).length ∧
      ∀ r ∈ process_layer_linear_combos smallParams smallCt [[1, 0, 2], [0, 1]],
        r.reduction.length = 2 ∧ r.accumulation ≠ none) :=
  ⟨(combinations_consistent smallParams smallCt 3 [[1, 0, 2], [0, 1]]).2.1 (by decide),
   (combinations_consistent smallParams smallCt 3 [[1, 0, 2], [0, 1]]).2.2.1 2 rfl
     (by decide) (by decide) (by decide)
     (by intro row hrow; simp at hrow; rcases hrow with rfl | rfl <;> decide)
     (by decide)⟩

end CKKS
